import Mathlib

/-!
Verification of `src/pfc_packages/gpf_slr.py` (ground-plane fitting and
scan-line-run clustering of a LiDAR point cloud).

The Python module operates on an N x 6 numpy array whose columns are
`[x, y, z, true_label, predicted_label, scanline_id]`.  We embed a row as the
record `Pt R` below, a cloud as a `List (Pt R)`, and the mutable
label-equivalence dictionary as an association list `List (ℕ × ℕ)`.

Numeric modelling choices (each noted again at the definition it concerns):
* Coordinates live in an arbitrary `LinearOrderedCommRing R` (a
  `LinearOrderedField F` where the source divides).  Every comparison
  `np.linalg.norm v < t` of a Euclidean norm against a threshold is embedded
  as the equivalent squared comparison `‖v‖² < t*t`, exact for the
  non-negative thresholds the module is used with (this avoids square roots,
  which do not exist in a general ordered field).
* Labels are natural numbers (the source stores them in a float column but
  only ever writes integer values).
* The KDTree of `sklearn` is an injected exact nearest-neighbour service; we
  embed its `query(..., k=1)` as a fold computing the minimum squared
  distance, returning the first minimiser (tie order is unspecified in the
  source's collaborator and irrelevant to the claims checked here).
-/

set_option linter.unusedSectionVars false

/-- One row of the N x 6 cloud: `[x, y, z, true_label, predicted_label, scanline_id]`. -/
structure Pt (R : Type) where
  x : R
  y : R
  z : R
  true_label : ℤ
  predicted_label : ℕ
  scanline_id : ℤ
deriving DecidableEq, Repr

variable {R : Type} [LinearOrderedCommRing R]

/-- Squared Euclidean distance between the xyz parts of two rows.
`np.linalg.norm(a[:3] - b[:3])` squared. -/
def sq_dist (p q : Pt R) : R :=
  (p.x - q.x) ^ 2 + (p.y - q.y) ^ 2 + (p.z - q.z) ^ 2

/-- Forward pass of `find_runs` (gpf_slr.py lines 150-163): walk the scanline,
extending the current run while consecutive points are within
`distance_threshold` of each other, closing it otherwise.  `prev` is the
previous point, `cur` the current run accumulated in reverse. -/
def runsGo (t : R) : Pt R → List (Pt R) → List (Pt R) → List (List (Pt R))
  | _, cur, [] => [cur.reverse]
  | prev, cur, q :: rest =>
    if sq_dist q prev < t * t then runsGo t q (q :: cur) rest
    else cur.reverse :: runsGo t q [q] rest

/-- The circular merge of `find_runs` (lines 170-173):
`runs[0] = np.vstack((runs[-1], runs[0])); runs.pop()`. -/
def merge_circular (runs : List (List (Pt R))) : List (List (Pt R)) :=
  match runs with
  | [] => []
  | r0 :: rtail => (rtail.getLastD [] ++ r0) :: rtail.dropLast

/-- `find_runs` (gpf_slr.py lines 137-175).  The source indexes
`scanline_points[0]`, so an empty scanline raises in Python; we return `[]`
there (that branch is unreachable from `scan_line_run_clustering`, whose
scanline groups are nonempty). -/
def find_runs (scanline_points : List (Pt R)) (distance_threshold : R) :
    List (List (Pt R)) :=
  match scanline_points with
  | [] => []
  | p :: rest =>
    let runs := runsGo distance_threshold p [p] rest
    -- circular case check, lines 166-170
    if sq_dist p ((p :: rest).getLast (List.cons_ne_nil p rest))
          < distance_threshold * distance_threshold ∧ 1 < runs.length then
      merge_circular runs
    else runs

/-! ### The label-equivalence dictionary

The Python dict `label_equivalences : {int: int}` is embedded as an
association list with distinct keys; `setKey` is dict assignment
(`label_equivalences[k] = v`): it overwrites an existing binding in place and
otherwise appends a new one. -/

/-- Python `k in label_equivalences`. -/
def containsKey (m : List (ℕ × ℕ)) (k : ℕ) : Bool :=
  (m.lookup k).isSome

/-- The keys of the dictionary. -/
def keysOf (m : List (ℕ × ℕ)) : List ℕ :=
  m.map Prod.fst

/-- `max(...)` over the keys (0 on the empty dict). -/
def maxKey (m : List (ℕ × ℕ)) : ℕ :=
  (m.map Prod.fst).foldr max 0

/-- Python `max(label_equivalences.values())` (0 on the empty dict, where the
Python call would raise `ValueError`; `update_labels` only evaluates it on the
nonempty dict produced by the first-scanline loop). -/
def maxValue (m : List (ℕ × ℕ)) : ℕ :=
  (m.map Prod.snd).foldr max 0

/-- Dict assignment `label_equivalences[k] = v`. -/
def setKey (m : List (ℕ × ℕ)) (k v : ℕ) : List (ℕ × ℕ) :=
  if containsKey m k then m.map (fun kv => if kv.1 = k then (k, v) else kv)
  else m ++ [(k, v)]

/-- Python `min(neighbor_labels)` (0 on the empty set, where Python raises;
the only call site is guarded by `if not neighbor_labels`). -/
def minOf : List ℕ → ℕ
  | [] => 0
  | a :: t => t.foldl min a

/-- Fuel-indexed label-chain walk.  `resolve_label`'s loop
`while label != label_equivalences[label]: label = label_equivalences[label]`
steps strictly downward on every state the module constructs (parents are
never larger than their keys), so fuel `label + 1` always suffices; on a
missing key Python raises `KeyError`, we stop and return the current label. -/
def resolveF (m : List (ℕ × ℕ)) : ℕ → ℕ → ℕ
  | 0, label => label
  | fuel + 1, label =>
    match m.lookup label with
    | none => label
    | some parent => if parent = label then label else resolveF m fuel parent

/-- `resolve_label` (gpf_slr.py lines 194-198): follow the equivalence chain
to its fixed point. -/
def resolve_label (m : List (ℕ × ℕ)) (label : ℕ) : ℕ :=
  resolveF m (label + 1) label

/-- Fuel-indexed fresh-label scan: the loop of `assign_new_label`
(line 201) `while ctr == 9 or ctr in label_equivalences: ctr += 1`.
The scan always exits within `maxKey m + 3` steps (see `freshFromAux_spec`),
so that fuel makes the embedding total. -/
def freshFromAux (m : List (ℕ × ℕ)) : ℕ → ℕ → ℕ
  | 0, c => c
  | fuel + 1, c =>
    if c = 9 ∨ containsKey m c then freshFromAux m fuel (c + 1) else c

/-- The label allocated by `assign_new_label`'s while loop started at
counter `c`. -/
def freshFrom (m : List (ℕ × ℕ)) (c : ℕ) : ℕ :=
  freshFromAux m (maxKey m + 3) c

/-! ### Scan-line-run clustering pipeline -/

/-- Exact 1-nearest-neighbour query against the previous scanline's points
(the `KDTree.query(run[:, :3], k=1)` of `update_labels`): returns the minimum
squared distance together with the `predicted_label` of the (first) nearest
point.  A KDTree cannot be built over zero points, so the `[]` case is
unreachable (`points_above` always stems from a nonempty scanline). -/
def nearest_sq (points_above : List (Pt R)) (q : Pt R) : R × ℕ :=
  match points_above with
  | [] => (0, 0)
  | p :: rest =>
    rest.foldl
      (fun best r => if sq_dist r q < best.1 then (sq_dist r q, r.predicted_label) else best)
      (sq_dist p q, p.predicted_label)

/-- The set `neighbor_labels` collected by `update_labels` for one run
(lines 218-227): resolved labels of previous-scanline points whose nearest
neighbour to some point of the run is within `merge_threshold`.  A Python
`set` is embedded as a duplicate-free list (`dedup` keeps the first
occurrence; only the minimum and the member set matter downstream). -/
def run_neighbor_labels (points_above : List (Pt R)) (m : List (ℕ × ℕ))
    (run : List (Pt R)) (merge_threshold : R) : List ℕ :=
  (((run.map (fun p => nearest_sq points_above p)).filter
      (fun dr => dr.1 < merge_threshold * merge_threshold)).map
      (fun dr => resolve_label m dr.2)).dedup

/-- `assign_new_label` (lines 200-205): allocate the first counter value that
is neither 9 nor an existing key, write it on the whole run, register it as
its own root, return counter+1. -/
def assign_new_label (run : List (Pt R)) (m : List (ℕ × ℕ))
    (global_label_counter : ℕ) : List (Pt R) × List (ℕ × ℕ) × ℕ :=
  let lbl := freshFrom m global_label_counter
  (run.map (fun p => { p with predicted_label := lbl }), setKey m lbl lbl, lbl + 1)

/-- `inherit_and_unify_labels` (lines 207-211): write the minimum neighbour
label on the run and point every neighbour label at that minimum. -/
def inherit_and_unify_labels (run : List (Pt R)) (neighbor_labels : List ℕ)
    (m : List (ℕ × ℕ)) : List (Pt R) × List (ℕ × ℕ) :=
  let min_label := minOf neighbor_labels
  (run.map (fun p => { p with predicted_label := min_label }),
   neighbor_labels.foldl (fun acc lbl => setKey acc lbl min_label) m)

/-- One iteration of the `for run in runs_current` loop of `update_labels`
(lines 218-233).  State: relabelled runs so far, the dictionary, the
label counter. -/
def update_labels_step (points_above : List (Pt R)) (merge_threshold : R)
    (acc : List (List (Pt R)) × List (ℕ × ℕ) × ℕ) (run : List (Pt R)) :
    List (List (Pt R)) × List (ℕ × ℕ) × ℕ :=
  let (done, m, ctr) := acc
  let neighbor_labels := run_neighbor_labels points_above m run merge_threshold
  if neighbor_labels.isEmpty then
    let (run2, m2, ctr2) := assign_new_label run m ctr
    (done ++ [run2], m2, ctr2)
  else
    let (run2, m2) := inherit_and_unify_labels run neighbor_labels m
    (done ++ [run2], m2, ctr)

/-- `update_labels` (gpf_slr.py lines 178-233): relabel the current
scanline's runs from the previous scanline's points; the counter is
re-initialised to `max(label_equivalences.values()) + 1` (line 213). -/
def update_labels (runs_current runs_above : List (List (Pt R)))
    (label_equivalences : List (ℕ × ℕ)) (merge_threshold : R) :
    List (List (Pt R)) × List (ℕ × ℕ) :=
  let points_above := runs_above.flatten
  let res := runs_current.foldl (update_labels_step points_above merge_threshold)
      ([], label_equivalences, maxValue label_equivalences + 1)
  (res.1, res.2.1)

/-- `group_by_scanline` (gpf_slr.py lines 120-134): split the cloud by
`scanline_id`, groups ordered by ascending id (`np.unique` returns sorted
unique values), each group keeping the cloud's original row order. -/
def group_by_scanline (point_cloud : List (Pt R)) : List (List (Pt R)) :=
  let unique_ids := ((point_cloud.map (fun p => p.scanline_id)).dedup).insertionSort (· ≤ ·)
  unique_ids.map (fun s_id => point_cloud.filter (fun p => p.scanline_id = s_id))

/-- `extract_clusters` (gpf_slr.py lines 236-254): flatten the scanlines and
replace every point's label by `label_equivalences[label]` — a single
dictionary dereference, not `resolve_label`.  (Python raises `KeyError` on a
missing key; every label written on a point is a key, and we return the label
unchanged in that unreachable case.) -/
def extract_clusters (scanlines : List (List (Pt R)))
    (label_equivalences : List (ℕ × ℕ)) : List (Pt R) :=
  scanlines.flatten.map (fun p =>
    { p with predicted_label :=
        (label_equivalences.lookup p.predicted_label).getD p.predicted_label })

/-- One iteration of the first-scanline initialisation loop of
`scan_line_run_clustering` (lines 293-298): bump the counter, skip 9, write
the label on the run and register it as its own root. -/
def init_scanline_step (acc : List (List (Pt R)) × List (ℕ × ℕ) × ℕ)
    (run : List (Pt R)) : List (List (Pt R)) × List (ℕ × ℕ) × ℕ :=
  let (done, m, label_counter) := acc
  let c1 := label_counter + 1
  let c2 := if c1 = 9 then c1 + 1 else c1
  (done ++ [run.map (fun p => { p with predicted_label := c2 })],
   setKey m c2 c2, c2)

/-- The first-scanline initialisation loop of `scan_line_run_clustering`
(lines 292-298): each run of scanline 0 gets the next counter value, skipping
9, and is registered as its own root. -/
def init_first_scanline (runs : List (List (Pt R))) :
    List (List (Pt R)) × List (ℕ × ℕ) × ℕ :=
  runs.foldl init_scanline_step ([], [], 0)

/-- The final write-back `point_cloud[non_ground_indices, 4] = clustered_points[:, 4]`
(line 311): only column 4 (predicted_label) of the listed rows is assigned;
`pairs` associates a row index with its new label. -/
def write_back (cloud : List (Pt R)) (pairs : List (ℕ × ℕ)) : List (Pt R) :=
  cloud.enum.map (fun ip =>
    match pairs.lookup ip.1 with
    | some lbl => { ip.2 with predicted_label := lbl }
    | none => ip.2)

/-- One iteration of the label-propagation loop of
`scan_line_run_clustering` (lines 303-308): find the current scanline's runs,
relabel them from the previous scanline, and record the relabelled scanline.
State: processed scanlines, the previous scanline's runs, the dictionary. -/
def slr_scanline_step (distance_threshold merge_threshold : R)
    (acc : List (List (Pt R)) × List (List (Pt R)) × List (ℕ × ℕ))
    (sl : List (Pt R)) :
    List (List (Pt R)) × List (List (Pt R)) × List (ℕ × ℕ) :=
  let (done, runs_above, m) := acc
  let runs_current := find_runs sl distance_threshold
  let (runs2, m2) := update_labels runs_current runs_above m merge_threshold
  (done ++ [runs2.flatten], runs2, m2)

/-- `scan_line_run_clustering` (gpf_slr.py lines 257-312), returning `none`
where Python raises `ValueError` and otherwise the rewritten cloud together
with the final label-equivalence dictionary (exposed for analysis of the
finalisation step). -/
def slr_core (point_cloud : List (Pt R)) (distance_threshold merge_threshold : R) :
    Option (List (Pt R) × List (ℕ × ℕ)) :=
  if point_cloud.countP (fun p => p.predicted_label = 0) = 0 then
    none  -- raise ValueError("point cloud já clusterizada")
  else
    let non_ground_indices :=
      (point_cloud.enum.filter (fun ip => ip.2.predicted_label = 0)).map Prod.fst
    let non_ground_points := point_cloud.filter (fun p => p.predicted_label = 0)
    if non_ground_points.isEmpty then
      none  -- second raise (line 287); dead code: the first check already fired
    else
      match group_by_scanline non_ground_points with
      | [] => none  -- unreachable: grouping a nonempty cloud yields a group
      | sl0 :: rest =>
        let (runs0, m0, _) := init_first_scanline (find_runs sl0 distance_threshold)
        let resrest := rest.foldl (slr_scanline_step distance_threshold merge_threshold)
          ([], runs0, m0)
        let scanlines := runs0.flatten :: resrest.1
        let clustered := extract_clusters scanlines resrest.2.2
        some (write_back point_cloud
                (non_ground_indices.zip (clustered.map (fun p => p.predicted_label))),
              resrest.2.2)

/-- The observable behaviour of `scan_line_run_clustering`: the (possibly
rewritten) cloud, plus `some message` when the Python function raises.  The
raise happens before any label is written, so the cloud component equals the
input in that case. -/
def scan_line_run_clustering (point_cloud : List (Pt R))
    (distance_threshold merge_threshold : R) : List (Pt R) × Option String :=
  match slr_core point_cloud distance_threshold merge_threshold with
  | none => (point_cloud, some "point cloud já clusterizada")
  | some res => (res.1, none)

/-! ### Ground-plane fitting (GPF)

`estimate_ground_plane` (gpf_slr.py lines 39-68) computes an
SVD/eigendecomposition of the seed covariance — numerical estimation outside
the reach of exact arithmetic, and treated by the design (§4.2/§6) as a
separate estimator component.  `refine_ground_plane` is therefore embedded
parametrically in the estimator `est`; every theorem about it holds for all
estimators, the source's SVD included. -/

/-- An xyz triple (one row of the N x 3 arrays the GPF helpers receive). -/
abbrev V3 (F : Type) := F × F × F

variable {F : Type} [LinearOrderedField F]

/-- Height (z, column 2) of an xyz triple. -/
def zc (v : V3 F) : F := v.2.2

/-- Dot product of two xyz triples. -/
def dot3 (a b : V3 F) : F := a.1 * b.1 + a.2.1 * b.2.1 + a.2.2 * b.2.2

/-- `np.mean` of a list (0 on the empty list, where numpy yields NaN). -/
def meanL (l : List F) : F := l.sum / (l.length : F)

/-- `extract_initial_seed_indices` (gpf_slr.py lines 12-36): sort indices by
height, average the `num_points` lowest heights (the LPR; numpy slicing
clamps `num_points` past the end), and return the indices (in
sorted-by-height order) of all points below `LPR + height_threshold`. -/
def extract_initial_seed_indices (point_cloud : List (V3 F)) (num_points : ℕ)
    (height_threshold : F) : List ℕ :=
  let sorted_pairs := (point_cloud.enum).insertionSort (fun a b => zc a.2 ≤ zc b.2)
  let lpr_height := meanL ((sorted_pairs.take num_points).map (fun a => zc a.2))
  (sorted_pairs.filter (fun a => zc a.2 < lpr_height + height_threshold)).map Prod.fst

/-- The LPR + threshold cutoff used by `extract_initial_seed_indices`,
exposed for the statements about it. -/
def lpr_of (point_cloud : List (V3 F)) (num_points : ℕ) : F :=
  meanL ((((point_cloud.enum).insertionSort (fun a b => zc a.2 ≤ zc b.2)).take
      num_points).map (fun a => zc a.2))

/-- The ground test of `refine_ground_plane` (lines 106-109):
`|normal·p + d| / ‖normal‖ < distance_threshold`, embedded squared
(multiply through by `‖normal‖ > 0` and square; exact for nonnegative
thresholds and a nonzero normal, which the source's unit-norm SVD output
satisfies). -/
def point_plane_close (plane : V3 F × F) (p : V3 F) (distance_threshold : F) : Bool :=
  decide ((dot3 plane.1 p + plane.2) ^ 2
    < distance_threshold ^ 2 * dot3 plane.1 plane.1)

/-- One GPF iteration (lines 101-112): fit a plane to the current seeds,
then reseed with every point within `distance_threshold` of it. -/
def gpf_step (est : List (V3 F) → V3 F × F) (xyz : List (V3 F))
    (distance_threshold : F) (seed_indices : List ℕ) : (V3 F × F) × List ℕ :=
  let plane := est (seed_indices.filterMap (fun i => xyz[i]?))
  (plane,
   (xyz.enum.filter (fun iv => point_plane_close plane iv.2 distance_threshold)).map
     Prod.fst)

/-- Seed evolution of one GPF iteration, as a function of the seed set
alone (used to state that the loop is a plain `num_iterations`-fold
iteration). -/
def gpf_reseed (est : List (V3 F) → V3 F × F) (xyz : List (V3 F))
    (distance_threshold : F) (seed_indices : List ℕ) : List ℕ :=
  (gpf_step est xyz distance_threshold seed_indices).2

/-- The `for _ in range(num_iterations)` loop of `refine_ground_plane`:
no convergence check, the last iteration's plane is kept.  With
`num_iterations = 0` Python raises `NameError` (`normal` unbound); the dummy
third argument stands in for the unbound variable there. -/
def gpf_go (est : List (V3 F) → V3 F × F) (xyz : List (V3 F))
    (distance_threshold : F) : ℕ → List ℕ → (V3 F × F) → List ℕ × (V3 F × F)
  | 0, seeds, plane => (seeds, plane)
  | k + 1, seeds, _ =>
    let st := gpf_step est xyz distance_threshold seeds
    gpf_go est xyz distance_threshold k st.2 st.1

/-- `refine_ground_plane` (gpf_slr.py lines 71-117): iterate `gpf_step`
`num_iterations` times from the initial seeds, then set
`predicted_label = 9` exactly on the rows of the final seed set (line 115);
all other rows are untouched. -/
def refine_ground_plane (est : List (V3 F) → V3 F × F) (point_cloud : List (Pt F))
    (num_points : ℕ) (height_threshold distance_threshold : F)
    (num_iterations : ℕ) : List (Pt F) × (V3 F × F) :=
  let xyz := point_cloud.map (fun p => (p.x, p.y, p.z))
  let seed_indices := extract_initial_seed_indices xyz num_points height_threshold
  let res := gpf_go est xyz distance_threshold num_iterations seed_indices ((0, 0, 0), 0)
  (point_cloud.enum.map (fun ip =>
      if ip.1 ∈ res.1 then { ip.2 with predicted_label := 9 } else ip.2),
   res.2)

/-- The full pipeline of one invocation: `refine_ground_plane` followed by
`scan_line_run_clustering` (the flow of §2 of the design). -/
def gpf_slr_pipeline (est : List (V3 F) → V3 F × F) (point_cloud : List (Pt F))
    (num_points : ℕ) (height_threshold gpf_distance_threshold : F)
    (num_iterations : ℕ) (slr_distance_threshold merge_threshold : F) :
    List (Pt F) × Option String :=
  let refined := refine_ground_plane est point_cloud num_points height_threshold
      gpf_distance_threshold num_iterations
  scan_line_run_clustering refined.1 slr_distance_threshold merge_threshold

/-! ### Reachable states of the label-equivalence dictionary

The dictionary is created empty once per clustering call (line 277) and then
mutated only by the three operations the source defines: the first-scanline
registration / `assign_new_label` (both allocate a fresh own-root label, the
counter always at most `maxKey + 1` — it is threaded as `allocated + 1` and
re-initialised to `max(values) + 1`), and `inherit_and_unify_labels` (which
redirects a nonempty set of resolved roots to their minimum).  `LStep` is one
such mutation, `LReachable` the states of the dictionary during one call. -/

/-- The dictionary update of `inherit_and_unify_labels` (lines 210-211):
`for lbl in neighbor_labels: label_equivalences[lbl] = min(neighbor_labels)`. -/
def unifyMap (m : List (ℕ × ℕ)) (S : List ℕ) : List (ℕ × ℕ) :=
  S.foldl (fun acc lbl => setKey acc lbl (minOf S)) m

/-- Well-formedness of the dictionary, as maintained by the module:
distinct keys; the key set is exactly `{1, ..., maxKey} \ {9}`; every value
is at most its key and is itself a key. -/
structure MapInv (m : List (ℕ × ℕ)) : Prop where
  nodup : (keysOf m).Nodup
  contiguous : ∀ l : ℕ, containsKey m l = true ↔ (1 ≤ l ∧ l ≤ maxKey m ∧ l ≠ 9)
  parent_le : ∀ k v, m.lookup k = some v → v ≤ k ∧ containsKey m v = true

/-- One mutation of the label-equivalence dictionary, as performed by the
source (see the section comment above). -/
inductive LStep : List (ℕ × ℕ) → List (ℕ × ℕ) → Prop
  | assign (m : List (ℕ × ℕ)) (c : ℕ) (h1 : 1 ≤ c) (h2 : c ≤ maxKey m + 1) :
      LStep m (setKey m (freshFrom m c) (freshFrom m c))
  | unify (m : List (ℕ × ℕ)) (S : List ℕ) (hne : S ≠ [])
      (hroots : ∀ s ∈ S, ∃ l, containsKey m l = true ∧ resolve_label m l = s) :
      LStep m (unifyMap m S)

/-- Dictionary states reachable during one clustering call. -/
def LReachable (m : List (ℕ × ℕ)) : Prop :=
  Relation.ReflTransGen LStep [] m

/-- The label the scan allocates on a well-formed dictionary: `maxKey + 1`,
bumped to 10 when that lands on the reserved 9. -/
def nextLabel (m : List (ℕ × ℕ)) : ℕ :=
  if maxKey m + 1 = 9 then 10 else maxKey m + 1

/-! ### Concrete inputs used by the closed instances below -/

/-- A row with height 0 at planar position `(a, b)`, scanline `s`, ground
truth 0 and provisional label `lbl`. -/
def ptZ (a b s : ℤ) (lbl : ℕ) : Pt ℤ :=
  { x := a, y := b, z := 0, true_label := 0, predicted_label := lbl, scanline_id := s }

/-- Three scanlines (thresholds: run distance 5, merge distance 10).
Scanline 0 splits into three one-point runs (labels 1, 2, 3); scanline 1
bridges labels 2 and 3; scanline 2 bridges labels 1 and 2.  All points are
transitively in one cluster, and the provisional-label chains have length 2. -/
def pcC1 : List (Pt ℤ) :=
  [ptZ 80 0 0 0, ptZ 100 0 0 0, ptZ 120 0 0 0,
   ptZ 80 9 1 0, ptZ 100 9 1 0, ptZ 104 9 1 0, ptZ 108 9 1 0,
   ptZ 112 9 1 0, ptZ 116 9 1 0, ptZ 120 9 1 0,
   ptZ 80 18 2 0, ptZ 84 18 2 0, ptZ 88 18 2 0, ptZ 92 18 2 0,
   ptZ 96 18 2 0, ptZ 100 18 2 0]

/-- A cloud in which every point is already labeled (no `predicted_label == 0`). -/
def pcAllLabeled : List (Pt ℤ) :=
  [ptZ 0 0 0 9, ptZ 3 0 0 1, ptZ 6 0 1 1]

/-- A two-scanline cloud with all labels 0. -/
def pcSmall : List (Pt ℤ) :=
  [ptZ 0 0 0 0, ptZ 3 0 0 0, ptZ 0 2 1 0, ptZ 9 2 1 0]

/-- A one-scanline cloud of three points: the first two 1 apart, the third
far away, first and last 40 apart (the run-splitting scenario of §8). -/
def slC8 : List (Pt ℤ) :=
  [ptZ 0 0 0 0, ptZ 1 0 0 0, ptZ 40 0 0 0]

/-- Two-point cloud for the ground-refinement instance. -/
def pcC7 : List (Pt ℚ) :=
  [{ x := 0, y := 0, z := 0, true_label := 0, predicted_label := 0, scanline_id := 0 },
   { x := 1, y := 0, z := 4, true_label := 0, predicted_label := 0, scanline_id := 0 }]

/-- A constant estimator (plane z = 0) for the ground-refinement instance. -/
def estC7 : List (V3 ℚ) → V3 ℚ × ℚ := fun _ => ((0, 0, 1), 0)

/-- Three xyz triples with distinct heights for the seed-selection instance. -/
def pcC9 : List (V3 ℚ) :=
  [(0, 0, 2), (1, 0, 0), (2, 0, 10)]
theorem runsGo_ne_nil (t : R) (prev : Pt R) (cur : List (Pt R))
    (l : List (Pt R)) : runsGo t prev cur l ≠ [] := by
  induction l generalizing prev cur with
  | nil => simp [runsGo]
  | cons q rest ih =>
    simp only [runsGo]
    split
    · exact ih q (q :: cur)
    · simp

theorem runsGo_flatten (t : R) (prev : Pt R) (cur : List (Pt R))
    (l : List (Pt R)) : (runsGo t prev cur l).flatten = cur.reverse ++ l := by
  induction l generalizing prev cur with
  | nil => simp [runsGo]
  | cons q rest ih =>
    simp only [runsGo]
    split
    · rw [ih q (q :: cur)]; simp
    · simp only [List.flatten_cons, ih q [q]]; simp

theorem find_runs_ne_nil (sl : List (Pt R)) (t : R) (hsl : sl ≠ []) :
    find_runs sl t ≠ [] := by
  match sl with
  | [] => exact absurd rfl hsl
  | p :: rest =>
    simp only [find_runs]
    split
    · rename_i h
      have hne := runsGo_ne_nil t p [p] rest
      match hr : runsGo t p [p] rest with
      | [] => exact absurd hr hne
      | r0 :: rtail => simp [merge_circular]
    · exact runsGo_ne_nil t p [p] rest

theorem merge_circular_flatten_perm (runs : List (List (Pt R))) :
    (merge_circular runs).flatten.Perm runs.flatten := by
  match runs with
  | [] => simp [merge_circular]
  | [r0] => simp [merge_circular]
  | r0 :: r1 :: rtail =>
    have hne : (r1 :: rtail) ≠ [] := List.cons_ne_nil _ _
    have hlast : (r1 :: rtail).getLastD [] = (r1 :: rtail).getLast hne := by
      rw [List.getLastD_eq_getLast?, List.getLast?_eq_getLast _ hne]
      rfl
    have hsplit : (r1 :: rtail).dropLast ++ [(r1 :: rtail).getLast hne] = r1 :: rtail :=
      List.dropLast_append_getLast hne
    have hflat : (r1 :: rtail).flatten
        = ((r1 :: rtail).dropLast).flatten ++ (r1 :: rtail).getLast hne := by
      conv_lhs => rw [← hsplit]
      simp
    simp only [merge_circular, List.flatten_cons, hlast, hflat]
    have h1 := (@List.perm_append_comm _ ((r1 :: rtail).getLast hne) r0).append_right
        (((r1 :: rtail).dropLast).flatten)
    refine h1.trans ?_
    rw [List.append_assoc]
    exact List.Perm.append_left r0 List.perm_append_comm

/-- The runs returned by `find_runs` contain exactly the scanline's points
(as a multiset): the forward pass concatenates back to the input and the
circular merge only rotates the last run to the front of the first. -/
theorem find_runs_flatten_perm (sl : List (Pt R)) (t : R) :
    (find_runs sl t).flatten.Perm sl := by
  match sl with
  | [] => simp [find_runs]
  | p :: rest =>
    simp only [find_runs]
    have hfwd : (runsGo t p [p] rest).flatten = p :: rest := by
      simpa using runsGo_flatten t p [p] rest
    split
    · exact (merge_circular_flatten_perm (runsGo t p [p] rest)).trans (hfwd ▸ List.Perm.refl _)
    · exact hfwd ▸ List.Perm.refl _


/-! ### Dictionary lemmas -/

theorem containsKey_iff_mem (m : List (ℕ × ℕ)) (k : ℕ) :
    containsKey m k = true ↔ k ∈ keysOf m := by
  induction m with
  | nil => simp [containsKey, keysOf]
  | cons a t ih =>
    simp only [containsKey, keysOf, List.map_cons, List.mem_cons, List.lookup_cons]
    rcases a with ⟨ak, av⟩
    by_cases h : k = ak
    · subst h; simp
    · have hbeq : (k == ak) = false := beq_false_of_ne h
      simp [hbeq, h, ← ih, containsKey]

theorem lookup_replace_self (t : List (ℕ × ℕ)) (k v : ℕ)
    (h : containsKey t k = true) :
    (t.map (fun kv => if kv.1 = k then (k, v) else kv)).lookup k = some v := by
  induction t with
  | nil => simp [containsKey] at h
  | cons a t ih =>
    rcases a with ⟨ak, av⟩
    by_cases hk : ak = k
    · subst hk; simp [List.lookup_cons]
    · have hbeq : (k == ak) = false := beq_false_of_ne (Ne.symm hk)
      have h' : containsKey t k = true := by
        simpa [containsKey, List.lookup_cons, hbeq] using h
      simp only [List.map_cons, if_neg hk, List.lookup_cons, hbeq]
      exact ih h'

theorem lookup_replace_ne (t : List (ℕ × ℕ)) (k v k' : ℕ) (h : k' ≠ k) :
    (t.map (fun kv => if kv.1 = k then (k, v) else kv)).lookup k' = t.lookup k' := by
  induction t with
  | nil => simp
  | cons a t ih =>
    rcases a with ⟨ak, av⟩
    by_cases hk : ak = k
    · subst hk
      have hbeq : (k' == ak) = false := beq_false_of_ne h
      simp [List.lookup_cons, hbeq, ih]
    · simp only [List.map_cons, if_neg hk, List.lookup_cons]
      cases hbe : (k' == ak) with
      | true => rfl
      | false => exact ih

theorem lookup_append_single_self (t : List (ℕ × ℕ)) (k v : ℕ)
    (h : containsKey t k = false) :
    (t ++ [(k, v)]).lookup k = some v := by
  induction t with
  | nil => simp [List.lookup_cons]
  | cons a t ih =>
    rcases a with ⟨ak, av⟩
    by_cases hk : ak = k
    · exfalso; subst hk; simp [containsKey, List.lookup_cons] at h
    · have hbeq : (k == ak) = false := beq_false_of_ne (Ne.symm hk)
      have h' : containsKey t k = false := by
        simpa [containsKey, List.lookup_cons, hbeq] using h
      simp only [List.cons_append, List.lookup_cons, hbeq]
      exact ih h'

theorem lookup_append_single_ne (t : List (ℕ × ℕ)) (k v k' : ℕ) (h : k' ≠ k) :
    (t ++ [(k, v)]).lookup k' = t.lookup k' := by
  induction t with
  | nil =>
    have hbeq : (k' == k) = false := beq_false_of_ne h
    simp [List.lookup_cons, hbeq]
  | cons a t ih =>
    rcases a with ⟨ak, av⟩
    simp only [List.cons_append, List.lookup_cons]
    cases hbe : (k' == ak) with
    | true => rfl
    | false => exact ih

theorem lookup_setKey_self (m : List (ℕ × ℕ)) (k v : ℕ) :
    (setKey m k v).lookup k = some v := by
  unfold setKey
  by_cases h : containsKey m k
  · simpa [h] using lookup_replace_self m k v h
  · have h' : containsKey m k = false := by simpa using h
    simpa [h'] using lookup_append_single_self m k v h'

theorem lookup_setKey_ne (m : List (ℕ × ℕ)) (k v k' : ℕ) (h : k' ≠ k) :
    (setKey m k v).lookup k' = m.lookup k' := by
  unfold setKey
  split
  · exact lookup_replace_ne m k v k' h
  · exact lookup_append_single_ne m k v k' h

theorem keysOf_setKey_mem (m : List (ℕ × ℕ)) (k v : ℕ) (h : containsKey m k = true) :
    keysOf (setKey m k v) = keysOf m := by
  unfold setKey
  simp only [h, if_true, keysOf, List.map_map]
  refine List.map_congr_left ?_
  intro kv _
  by_cases hk : kv.1 = k
  · simp [Function.comp, hk]
  · simp [Function.comp, hk]

theorem containsKey_setKey (m : List (ℕ × ℕ)) (k v k' : ℕ) :
    containsKey (setKey m k v) k' = (containsKey m k' || k' == k) := by
  by_cases h : k' = k
  · subst h; simp [containsKey, lookup_setKey_self]
  · simp [containsKey, lookup_setKey_ne m k v k' h, h]

theorem foldrMax_le_iff (l : List ℕ) (b : ℕ) :
    l.foldr max 0 ≤ b ↔ ∀ x ∈ l, x ≤ b := by
  induction l with
  | nil => simp
  | cons a t ih => simp [List.foldr_cons, max_le_iff, ih]

theorem le_foldrMax (l : List ℕ) (x : ℕ) (h : x ∈ l) : x ≤ l.foldr max 0 :=
  (foldrMax_le_iff l (l.foldr max 0)).mp le_rfl x h

theorem foldrMax_append_singleton (l : List ℕ) (k : ℕ) :
    (l ++ [k]).foldr max 0 = max (l.foldr max 0) k := by
  induction l with
  | nil => simp
  | cons a t ih => simp [List.foldr_cons, ih, max_assoc]

theorem foldl_min_le_init (t : List ℕ) (a : ℕ) : t.foldl min a ≤ a := by
  induction t generalizing a with
  | nil => exact le_rfl
  | cons b t ih => exact le_trans (ih (min a b)) (min_le_left a b)

theorem foldl_min_le_mem (t : List ℕ) (a s : ℕ) (h : s ∈ t) : t.foldl min a ≤ s := by
  induction t generalizing a with
  | nil => simp at h
  | cons b t ih =>
    simp only [List.foldl_cons]
    rcases List.mem_cons.mp h with h1 | h1
    · subst h1
      exact le_trans (foldl_min_le_init t (min a s)) (min_le_right a s)
    · exact ih (min a b) h1

theorem minOf_le (S : List ℕ) (s : ℕ) (h : s ∈ S) : minOf S ≤ s := by
  match S with
  | a :: t =>
    simp only [minOf]
    rcases List.mem_cons.mp h with h1 | h1
    · subst h1
      exact foldl_min_le_init t s
    · exact foldl_min_le_mem t a s h1

theorem minOf_mem (S : List ℕ) (h : S ≠ []) : minOf S ∈ S := by
  match S with
  | a :: t =>
    suffices hgen : ∀ (t : List ℕ) (a : ℕ), t.foldl min a ∈ a :: t by
      simpa [minOf] using hgen t a
    intro t
    induction t with
    | nil => simp
    | cons b t ih =>
      intro a
      have hmem := ih (min a b)
      rcases List.mem_cons.mp hmem with h1 | h1
      · rcases min_choice a b with hc | hc
        · exact List.mem_cons.mpr (Or.inl (h1.trans hc))
        · exact List.mem_cons.mpr (Or.inr (List.mem_cons.mpr (Or.inl (h1.trans hc))))
      · exact List.mem_cons.mpr (Or.inr (List.mem_cons.mpr (Or.inr h1)))

theorem keysOf_setKey_new (m : List (ℕ × ℕ)) (k v : ℕ) (h : containsKey m k = false) :
    keysOf (setKey m k v) = keysOf m ++ [k] := by
  unfold setKey
  simp [h, keysOf]

theorem mem_of_lookup_eq_some (m : List (ℕ × ℕ)) (k v : ℕ)
    (h : m.lookup k = some v) : (k, v) ∈ m := by
  induction m with
  | nil => simp at h
  | cons a t ih =>
    rcases a with ⟨ak, av⟩
    rw [List.lookup_cons] at h
    cases hbe : (k == ak) with
    | true =>
      rw [hbe] at h
      simp only [Option.some.injEq] at h
      have hk : k = ak := by simpa using hbe
      simp [hk, h]
    | false =>
      rw [hbe] at h
      exact List.mem_cons.mpr (Or.inr (ih h))

theorem lookup_eq_some_of_mem (m : List (ℕ × ℕ)) (k v : ℕ)
    (hnd : (keysOf m).Nodup) (h : (k, v) ∈ m) : m.lookup k = some v := by
  induction m with
  | nil => simp at h
  | cons a t ih =>
    rcases a with ⟨ak, av⟩
    simp only [keysOf, List.map_cons, List.nodup_cons] at hnd
    rcases List.mem_cons.mp h with h1 | h1
    · rw [Prod.mk.injEq] at h1
      rw [List.lookup_cons]
      have : (k == ak) = true := by simp [h1.1]
      simp [this, h1.2]
    · have hk : k ≠ ak := by
        intro he
        exact hnd.1 (he ▸ (List.mem_map.mpr ⟨(k, v), h1, rfl⟩))
      have hbeq : (k == ak) = false := beq_false_of_ne hk
      rw [List.lookup_cons, hbeq]
      exact ih (by simpa [keysOf] using hnd.2) h1

/-! ### Fresh-label allocation -/

/-- The value `assign_new_label`'s scan reaches when every slot from `c` up to
(but excluding) `target` is either 9 or an existing key and `target` itself
is free. -/
theorem freshFromAux_eq (m : List (ℕ × ℕ)) (target : ℕ)
    (htne : target ≠ 9) (htfree : containsKey m target = false) :
    ∀ fuel c, c ≤ target → target - c < fuel →
      (∀ x, c ≤ x → x < target → (x = 9 ∨ containsKey m x = true)) →
      freshFromAux m fuel c = target := by
  intro fuel
  induction fuel with
  | zero => intro c _ h2 _; omega
  | succ fuel ih =>
    intro c h1 h2 h3
    by_cases hc : c = target
    · subst hc
      simp [freshFromAux, htne, htfree]
    · have hlt : c < target := lt_of_le_of_ne h1 hc
      have hcond : c = 9 ∨ containsKey m c = true := h3 c le_rfl hlt
      have : freshFromAux m (fuel + 1) c = freshFromAux m fuel (c + 1) := by
        rcases hcond with h | h
        · simp [freshFromAux, h]
        · simp [freshFromAux, h]
      rw [this]
      exact ih (c + 1) hlt (by omega) (fun x hx1 hx2 => h3 x (by omega) hx2)

theorem maxKey_lt_of_not_mem (m : List (ℕ × ℕ)) (l : ℕ) (h : maxKey m < l) :
    containsKey m l = false := by
  by_contra hc
  have : containsKey m l = true := by simpa using hc
  have hmem : l ∈ keysOf m := (containsKey_iff_mem m l).mp this
  have : l ≤ maxKey m := le_foldrMax _ l (by simpa [keysOf] using hmem)
  omega

theorem freshFrom_eq_nextLabel (m : List (ℕ × ℕ)) (hinv : MapInv m)
    (c : ℕ) (h1 : 1 ≤ c) (h2 : c ≤ maxKey m + 1) :
    freshFrom m c = nextLabel m := by
  unfold freshFrom nextLabel
  by_cases h9 : maxKey m + 1 = 9
  · simp only [h9, if_true]
    refine freshFromAux_eq m 10 (by omega) (maxKey_lt_of_not_mem m 10 (by omega))
      (maxKey m + 3) c (by omega) (by omega) ?_
    intro x hx1 hx2
    by_cases hx9 : x = 9
    · exact Or.inl hx9
    · refine Or.inr ((hinv.contiguous x).mpr ⟨by omega, by omega, hx9⟩)
  · simp only [h9, if_false]
    refine freshFromAux_eq m (maxKey m + 1) h9 (maxKey_lt_of_not_mem m _ (by omega))
      (maxKey m + 3) c (by omega) (by omega) ?_
    intro x hx1 hx2
    by_cases hx9 : x = 9
    · exact Or.inl hx9
    · refine Or.inr ((hinv.contiguous x).mpr ⟨by omega, by omega, hx9⟩)

theorem nextLabel_not_mem (m : List (ℕ × ℕ)) : containsKey m (nextLabel m) = false := by
  unfold nextLabel
  split
  · exact maxKey_lt_of_not_mem m 10 (by omega)
  · exact maxKey_lt_of_not_mem m _ (by omega)

theorem nextLabel_ne_nine (m : List (ℕ × ℕ)) : nextLabel m ≠ 9 := by
  unfold nextLabel
  split <;> omega

theorem nextLabel_pos (m : List (ℕ × ℕ)) : 1 ≤ nextLabel m := by
  unfold nextLabel
  split <;> omega

/-- On a well-formed dictionary the allocated label is the least free one:
below `nextLabel`, every positive non-9 value is a key. -/
theorem nextLabel_least (m : List (ℕ × ℕ)) (hinv : MapInv m) (l : ℕ)
    (h1 : 1 ≤ l) (h9 : l ≠ 9) (hfree : containsKey m l = false) :
    nextLabel m ≤ l := by
  by_contra hc
  push_neg at hc
  have hkey : containsKey m l = true := by
    refine (hinv.contiguous l).mpr ⟨h1, ?_, h9⟩
    unfold nextLabel at hc
    by_cases h : maxKey m + 1 = 9 <;> simp [h] at hc <;> omega
  rw [hkey] at hfree
  exact absurd hfree (by simp)

/-! ### Resolution of label chains -/

/-- On a well-formed dictionary, the chain from any key reaches a fixed point
within any fuel exceeding the label: parents strictly decrease along the
chain.  All three facts are proved together by strong induction. -/
theorem resolveF_spec (m : List (ℕ × ℕ)) (hinv : MapInv m) :
    ∀ l, containsKey m l = true →
      (∀ fuel, l < fuel → resolveF m fuel l = resolve_label m l) ∧
      m.lookup (resolve_label m l) = some (resolve_label m l) ∧
      resolve_label m l ≤ l := by
  intro l
  induction l using Nat.strong_induction_on with
  | _ l ih =>
    intro hkey
    have hs : (m.lookup l).isSome = true := by
      unfold containsKey at hkey; exact hkey
    obtain ⟨p, hp⟩ := Option.isSome_iff_exists.mp hs
    obtain ⟨hple, hpkey⟩ := hinv.parent_le l p hp
    by_cases heq : p = l
    · subst heq
      have hres : ∀ fuel, p < fuel → resolveF m fuel p = p := by
        intro fuel hf
        match fuel with
        | f + 1 => simp [resolveF, hp]
      have hrl : resolve_label m p = p := hres (p + 1) (by omega)
      exact ⟨fun fuel hf => by rw [hres fuel hf, hrl], by rw [hrl]; exact hp, by omega⟩
    · have hplt : p < l := lt_of_le_of_ne hple heq
      obtain ⟨hpfuel, hproot, hple'⟩ := ih p hplt hpkey
      have hstep : ∀ fuel, l < fuel → resolveF m fuel l = resolve_label m p := by
        intro fuel hf
        match fuel with
        | f + 1 =>
          have : resolveF m (f + 1) l = resolveF m f p := by
            simp [resolveF, hp, heq]
          rw [this]
          exact hpfuel f (by omega)
      have hrl : resolve_label m l = resolve_label m p := hstep (l + 1) (by omega)
      refine ⟨fun fuel hf => by rw [hstep fuel hf, hrl], ?_, ?_⟩
      · rw [hrl]; exact hproot
      · rw [hrl]; omega

/-- `resolve_label` of a root is that root. -/
theorem resolve_label_root (m : List (ℕ × ℕ)) (r : ℕ)
    (h : m.lookup r = some r) : resolve_label m r = r := by
  simp [resolve_label, resolveF, h]

/-- `resolve_label` lands on a key whenever it starts from one. -/
theorem resolve_label_key (m : List (ℕ × ℕ)) (hinv : MapInv m) (l : ℕ)
    (h : containsKey m l = true) : containsKey m (resolve_label m l) = true := by
  have hroot := (resolveF_spec m hinv l h).2.1
  simp [containsKey, hroot]

/-! ### Preservation of the dictionary invariant -/

theorem maxKey_eq_keysOf (m : List (ℕ × ℕ)) : maxKey m = (keysOf m).foldr max 0 := rfl

theorem maxKey_lt_nextLabel (m : List (ℕ × ℕ)) : maxKey m < nextLabel m := by
  unfold nextLabel
  split <;> omega

theorem mapInv_empty : MapInv ([] : List (ℕ × ℕ)) := by
  refine ⟨by simp [keysOf], ?_, ?_⟩
  · intro l
    constructor
    · intro h; simp [containsKey] at h
    · intro ⟨h1, h2, _⟩
      simp [maxKey] at h2
      omega
  · intro k v h
    simp at h

theorem mapInv_assign (m : List (ℕ × ℕ)) (hinv : MapInv m) (c : ℕ)
    (h1 : 1 ≤ c) (h2 : c ≤ maxKey m + 1) :
    MapInv (setKey m (freshFrom m c) (freshFrom m c)) := by
  rw [freshFrom_eq_nextLabel m hinv c h1 h2]
  have hfree : containsKey m (nextLabel m) = false := nextLabel_not_mem m
  have hkeys : keysOf (setKey m (nextLabel m) (nextLabel m)) = keysOf m ++ [nextLabel m] :=
    keysOf_setKey_new m _ _ hfree
  have hmaxlt : maxKey m < nextLabel m := maxKey_lt_nextLabel m
  have hmax : maxKey (setKey m (nextLabel m) (nextLabel m)) = nextLabel m := by
    rw [maxKey_eq_keysOf, hkeys, foldrMax_append_singleton, ← maxKey_eq_keysOf]
    omega
  have hcontains : ∀ l, containsKey (setKey m (nextLabel m) (nextLabel m)) l = true ↔
      (containsKey m l = true ∨ l = nextLabel m) := by
    intro l
    rw [containsKey_setKey]
    simp [Bool.or_eq_true, beq_iff_eq]
  refine ⟨?_, ?_, ?_⟩
  · rw [hkeys]
    have hnm : nextLabel m ∉ keysOf m := by
      intro hmem
      rw [(containsKey_iff_mem m _).mpr hmem] at hfree
      simp at hfree
    simp [List.nodup_append, hinv.nodup, hnm]
  · intro l
    rw [hcontains l, hmax]
    have hcont := hinv.contiguous l
    have h9 : nextLabel m ≠ 9 := nextLabel_ne_nine m
    have hpos : 1 ≤ nextLabel m := nextLabel_pos m
    constructor
    · rintro (h | h)
      · obtain ⟨a, b, c'⟩ := hcont.mp h
        exact ⟨a, by omega, c'⟩
      · subst h; exact ⟨hpos, le_rfl, h9⟩
    · rintro ⟨ha, hb, hc⟩
      by_cases hl : l = nextLabel m
      · exact Or.inr hl
      · refine Or.inl (hcont.mpr ⟨ha, ?_, hc⟩)
        -- l < nextLabel m and l ≠ 9 imply l ≤ maxKey m
        unfold nextLabel at hb hl
        by_cases h9' : maxKey m + 1 = 9 <;> simp [h9'] at hb hl <;> omega
  · intro k v h
    by_cases hk : k = nextLabel m
    · subst hk
      rw [lookup_setKey_self] at h
      obtain rfl : v = nextLabel m := by simpa using h.symm
      exact ⟨le_rfl, by rw [containsKey_setKey]; simp⟩
    · rw [lookup_setKey_ne m _ _ k hk] at h
      obtain ⟨hle, hck⟩ := hinv.parent_le k v h
      exact ⟨hle, by rw [containsKey_setKey, hck]; simp⟩

theorem foldl_setKey_lookup (w : ℕ) :
    ∀ (S : List ℕ) (acc : List (ℕ × ℕ)), (∀ s ∈ S, containsKey acc s = true) →
      keysOf (S.foldl (fun a l => setKey a l w) acc) = keysOf acc ∧
      ∀ k, (S.foldl (fun a l => setKey a l w) acc).lookup k =
        if k ∈ S then some w else acc.lookup k := by
  intro S
  induction S with
  | nil => intro acc _; simp
  | cons s t ih =>
    intro acc hall
    have hs : containsKey acc s = true := hall s (by simp)
    have hkeys1 : keysOf (setKey acc s w) = keysOf acc := keysOf_setKey_mem acc s w hs
    have hall' : ∀ x ∈ t, containsKey (setKey acc s w) x = true := by
      intro x hx
      rw [containsKey_setKey, hall x (by simp [hx])]
      simp
    obtain ⟨ihkeys, ihlook⟩ := ih (setKey acc s w) hall'
    constructor
    · simp only [List.foldl_cons]
      rw [ihkeys, hkeys1]
    · intro k
      simp only [List.foldl_cons]
      rw [ihlook k]
      by_cases hkt : k ∈ t
      · simp [hkt, List.mem_cons]
      · by_cases hks : k = s
        · subst hks
          simp [hkt, lookup_setKey_self]
        · simp [hkt, hks, lookup_setKey_ne acc s w k hks]

/-- In a unify step all members of `S` are roots (keys mapped to themselves). -/
theorem unify_members_roots (m : List (ℕ × ℕ)) (hinv : MapInv m) (S : List ℕ)
    (hroots : ∀ s ∈ S, ∃ l, containsKey m l = true ∧ resolve_label m l = s) :
    ∀ s ∈ S, containsKey m s = true ∧ m.lookup s = some s := by
  intro s hs
  obtain ⟨l, hl, hres⟩ := hroots s hs
  have hr := (resolveF_spec m hinv l hl).2.1
  rw [hres] at hr
  exact ⟨by simp [containsKey, hr], hr⟩

theorem mapInv_unify (m : List (ℕ × ℕ)) (hinv : MapInv m) (S : List ℕ) (hne : S ≠ [])
    (hroots : ∀ s ∈ S, ∃ l, containsKey m l = true ∧ resolve_label m l = s) :
    MapInv (unifyMap m S) := by
  have hmem := unify_members_roots m hinv S hroots
  obtain ⟨hkeys, hlook⟩ := foldl_setKey_lookup (minOf S) S m (fun s hs => (hmem s hs).1)
  have hkeys' : keysOf (unifyMap m S) = keysOf m := hkeys
  have hmaxeq : maxKey (unifyMap m S) = maxKey m := by
    rw [maxKey_eq_keysOf, hkeys', ← maxKey_eq_keysOf]
  have hcont : ∀ l, containsKey (unifyMap m S) l = containsKey m l := by
    intro l
    cases hc : containsKey m l with
    | true =>
      have := (containsKey_iff_mem m l).mp hc
      exact (containsKey_iff_mem _ l).mpr (hkeys' ▸ this)
    | false =>
      cases hc' : containsKey (unifyMap m S) l with
      | true =>
        have := (containsKey_iff_mem _ l).mp hc'
        rw [hkeys'] at this
        rw [(containsKey_iff_mem m l).mpr this] at hc
        exact hc
      | false => rfl
  have hmnS : minOf S ∈ S := minOf_mem S hne
  refine ⟨by rw [hkeys']; exact hinv.nodup, ?_, ?_⟩
  · intro l
    rw [hcont l, hmaxeq]
    exact hinv.contiguous l
  · intro k v h
    unfold unifyMap at h
    rw [hlook k] at h
    by_cases hk : k ∈ S
    · rw [if_pos hk] at h
      obtain rfl : v = minOf S := by simpa using h.symm
      refine ⟨minOf_le S k hk, ?_⟩
      rw [hcont]
      exact (hmem (minOf S) hmnS).1
    · rw [if_neg hk] at h
      obtain ⟨hle, hck⟩ := hinv.parent_le k v h
      exact ⟨hle, by rw [hcont]; exact hck⟩

theorem LStep_mapInv (m m' : List (ℕ × ℕ)) (hinv : MapInv m) (h : LStep m m') :
    MapInv m' := by
  cases h with
  | assign c h1 h2 => exact mapInv_assign m hinv c h1 h2
  | unify S hne hroots => exact mapInv_unify m hinv S hne hroots

theorem LReachable_mapInv (m : List (ℕ × ℕ)) (h : LReachable m) : MapInv m := by
  induction h with
  | refl => exact mapInv_empty
  | tail _ hstep ih => exact LStep_mapInv _ _ ih hstep

/-- Keys are never removed by a mutation of the dictionary. -/
theorem LStep_keys_monotone (m m' : List (ℕ × ℕ)) (hinv : MapInv m)
    (h : LStep m m') (k : ℕ) (hk : containsKey m k = true) :
    containsKey m' k = true := by
  cases h with
  | assign c h1 h2 => rw [containsKey_setKey, hk]; simp
  | unify S hne hroots =>
    obtain ⟨hkeys, _⟩ := foldl_setKey_lookup (minOf S) S m
      (fun s hs => (unify_members_roots m hinv S hroots s hs).1)
    exact (containsKey_iff_mem _ k).mpr (hkeys ▸ (containsKey_iff_mem m k).mp hk)

/-! ### Claims C4-C6: invariants of the label-equivalence structure -/

/-- Claim C4: in every reachable state of the label-equivalence mapping,
following the mapping from any key terminates at a fixed point — a root with
`label == mapping[label]` (the walk stabilises under any sufficient fuel) —
the root is the numerically smallest label of its equivalence class, `resolve`
is idempotent, and a union redirects all its (root) members to their common
minimum, so transitively unified labels share one root. -/
theorem claim_C4_resolve_invariants (m : List (ℕ × ℕ)) (hm : LReachable m)
    (l : ℕ) (hl : containsKey m l = true) :
    m.lookup (resolve_label m l) = some (resolve_label m l)
    ∧ resolve_label m (resolve_label m l) = resolve_label m l
    ∧ (∀ fuel, l < fuel → resolveF m fuel l = resolve_label m l)
    ∧ (∀ l', containsKey m l' = true → resolve_label m l' = resolve_label m l →
        resolve_label m l ≤ l')
    ∧ (∀ S, S ≠ [] →
        (∀ s ∈ S, ∃ a, containsKey m a = true ∧ resolve_label m a = s) →
        ∀ s ∈ S, resolve_label (unifyMap m S) s = minOf S) := by
  have hinv := LReachable_mapInv m hm
  obtain ⟨hfuel, hroot, hle⟩ := resolveF_spec m hinv l hl
  refine ⟨hroot, resolve_label_root m _ hroot, hfuel, ?_, ?_⟩
  · intro l' hl' heq
    have := (resolveF_spec m hinv l' hl').2.2
    omega
  · intro S hne hroots s hs
    have hmem := unify_members_roots m hinv S hroots
    obtain ⟨_, hlook⟩ := foldl_setKey_lookup (minOf S) S m (fun a ha => (hmem a ha).1)
    have hs' : (unifyMap m S).lookup s = some (minOf S) := by
      unfold unifyMap; rw [hlook s]; simp [hs]
    have hmn : (unifyMap m S).lookup (minOf S) = some (minOf S) := by
      unfold unifyMap; rw [hlook (minOf S)]; simp [minOf_mem S hne]
    by_cases hms : minOf S = s
    · rw [← hms] at hs' ⊢
      exact resolve_label_root _ _ hs'
    · have hspos : 1 ≤ s := by
        have := (hinv.contiguous s).mp (hmem s hs).1
        omega
      obtain ⟨f, rfl⟩ : ∃ f, s = f + 1 := ⟨s - 1, by omega⟩
      show resolveF (unifyMap m S) (f + 1 + 1) (f + 1) = minOf S
      rw [resolveF, hs']
      simp only [hms, if_false]
      rw [resolveF, hmn]
      simp

/-- Claim C5: in every reachable state, label 9 appears neither as a key nor
as a value of the mapping, and every further mutation preserves all existing
keys (the mapping is monotonically non-shrinking). -/
theorem claim_C5_no_nine_and_monotone (m : List (ℕ × ℕ)) (hm : LReachable m) :
    containsKey m 9 = false
    ∧ (∀ kv ∈ m, kv.1 ≠ 9 ∧ kv.2 ≠ 9)
    ∧ (∀ m', LStep m m' → ∀ k, containsKey m k = true → containsKey m' k = true) := by
  have hinv := LReachable_mapInv m hm
  refine ⟨?_, ?_, fun m' hstep k hk => LStep_keys_monotone m m' hinv hstep k hk⟩
  · cases hc : containsKey m 9 with
    | false => rfl
    | true =>
      have := (hinv.contiguous 9).mp hc
      omega
  · intro kv hkv
    have hkey : containsKey m kv.1 = true :=
      (containsKey_iff_mem m kv.1).mpr (List.mem_map.mpr ⟨kv, hkv, rfl⟩)
    have hlook : m.lookup kv.1 = some kv.2 :=
      lookup_eq_some_of_mem m kv.1 kv.2 hinv.nodup (by simpa using hkv)
    obtain ⟨_, hvkey⟩ := hinv.parent_le kv.1 kv.2 hlook
    have h1 := (hinv.contiguous kv.1).mp hkey
    have h2 := (hinv.contiguous kv.2).mp hvkey
    exact ⟨h1.2.2, h2.2.2⟩

/-- Claim C6: starting anywhere within the counter range the source uses —
and it re-initialises the counter to `max(values) + 1`, which is always in
range — the `new_label` scan allocates the smallest unused positive label
different from 9 and registers it as its own root; the first-scanline loop's
plain skip-9 increment coincides with it. -/
theorem claim_C6_new_label_least (m : List (ℕ × ℕ)) (hm : LReachable m) :
    (maxValue m + 1 ≤ maxKey m + 1)
    ∧ (∀ c, 1 ≤ c → c ≤ maxKey m + 1 →
        1 ≤ freshFrom m c ∧ freshFrom m c ≠ 9
        ∧ containsKey m (freshFrom m c) = false
        ∧ (∀ l, 1 ≤ l → l ≠ 9 → containsKey m l = false → freshFrom m c ≤ l)
        ∧ (setKey m (freshFrom m c) (freshFrom m c)).lookup (freshFrom m c)
            = some (freshFrom m c))
    ∧ (maxKey m + 1 ≠ 9 → freshFrom m (maxKey m + 1) = maxKey m + 1)
    ∧ (maxKey m + 1 = 9 → freshFrom m (maxKey m + 1) = 10) := by
  have hinv := LReachable_mapInv m hm
  refine ⟨?_, ?_, ?_, ?_⟩
  · have hval : ∀ v ∈ m.map Prod.snd, v ≤ maxKey m := by
      intro v hv
      obtain ⟨kv, hkv, rfl⟩ := List.mem_map.mp hv
      have hlook : m.lookup kv.1 = some kv.2 :=
        lookup_eq_some_of_mem m kv.1 kv.2 hinv.nodup (by simpa using hkv)
      obtain ⟨_, hvkey⟩ := hinv.parent_le kv.1 kv.2 hlook
      exact ((hinv.contiguous kv.2).mp hvkey).2.1
    have : maxValue m ≤ maxKey m := (foldrMax_le_iff _ _).mpr hval
    omega
  · intro c h1 h2
    rw [freshFrom_eq_nextLabel m hinv c h1 h2]
    exact ⟨nextLabel_pos m, nextLabel_ne_nine m, nextLabel_not_mem m,
      fun l a b c' => nextLabel_least m hinv l a b c', lookup_setKey_self m _ _⟩
  · intro h9
    rw [freshFrom_eq_nextLabel m hinv (maxKey m + 1) (by omega) le_rfl]
    unfold nextLabel
    simp [h9]
  · intro h9
    rw [freshFrom_eq_nextLabel m hinv (maxKey m + 1) (by omega) le_rfl]
    unfold nextLabel
    simp [h9]

/-- The one-key dictionary `{1: 1}` is reachable (one fresh allocation from
the empty dictionary). -/
theorem reachable_one : LReachable [(1, 1)] := by
  have hstep : LStep [] (setKey [] (freshFrom [] 1) (freshFrom [] 1)) :=
    LStep.assign ([] : List (ℕ × ℕ)) 1 le_rfl (by decide)
  have heq : setKey ([] : List (ℕ × ℕ)) (freshFrom [] 1) (freshFrom [] 1) = [(1, 1)] := by
    decide
  exact Relation.ReflTransGen.single (heq ▸ hstep)

theorem claim_C4_witness :
    List.lookup (resolve_label [(1, 1)] 1) [(1, 1)]
        = some (resolve_label [(1, 1)] 1)
    ∧ resolve_label [(1, 1)] (resolve_label [(1, 1)] 1) = resolve_label [(1, 1)] 1
    ∧ resolveF [(1, 1)] 5 1 = resolve_label [(1, 1)] 1
    ∧ resolve_label [(1, 1)] 1 ≤ 1 := by
  have h := claim_C4_resolve_invariants [(1, 1)] reachable_one 1 (by decide)
  exact ⟨h.1, h.2.1, h.2.2.1 5 (by decide), h.2.2.2.1 1 (by decide) rfl⟩

theorem claim_C5_witness :
    containsKey [(1, 1)] 9 = false
    ∧ ((1, 1).1 ≠ 9 ∧ (1, 1).2 ≠ 9) := by
  have h := claim_C5_no_nine_and_monotone [(1, 1)] reachable_one
  exact ⟨h.1, h.2.1 (1, 1) (by decide)⟩

theorem claim_C6_witness :
    maxValue [(1, 1)] + 1 ≤ maxKey [(1, 1)] + 1
    ∧ freshFrom [(1, 1)] 2 ≠ 9
    ∧ containsKey [(1, 1)] (freshFrom [(1, 1)] 2) = false
    ∧ freshFrom [(1, 1)] 2 ≤ 2 := by
  have h := claim_C6_new_label_least [(1, 1)] reachable_one
  obtain ⟨h1, h2, _, _⟩ := h
  obtain ⟨_, hb, hc, hd, _⟩ := h2 2 (by decide) (by decide)
  exact ⟨h1, hb, hc, hd 2 (by decide) (by decide) (by decide)⟩

/-! ### Claim C1: the finalisation step -/

/-- Claim C1 fails on the code: `extract_clusters` replaces a point's label by
the single dereference `label_equivalences[label]`, not by the fixed point
`resolve_label`.  On `pcC1` the third point (provisional label 3) receives
final label 2, the final mapping sends 2 to 1 (so `mapping[L] ≠ L` for its
final label `L = 2`), and the chain from 3 actually resolves to 1 — which is
also the final label of every other point of the same transitively-merged
cluster. -/
theorem claim_C1_finalization_single_lookup :
    (slr_core pcC1 (5 : ℤ) 10).map
        (fun r => (r.1.map (fun p => p.predicted_label), r.2))
      = some ([1, 1, 2, 1, 1, 1, 1, 1, 1, 1, 1, 1, 1, 1, 1, 1],
              [(1, 1), (2, 1), (3, 2)])
    ∧ List.lookup 2 [(1, 1), (2, 1), (3, 2)] = some 1
    ∧ resolve_label [(1, 1), (2, 1), (3, 2)] 3 = 1 :=
  ⟨by decide, by decide, by decide⟩

/-! ### Claim C2: the InputExhausted error -/

theorem group_by_scanline_ne_nil (pc : List (Pt R)) (h : pc ≠ []) :
    group_by_scanline pc ≠ [] := by
  unfold group_by_scanline
  intro hnil
  rw [List.map_eq_nil_iff] at hnil
  have hperm := List.perm_insertionSort (fun a b : ℤ => a ≤ b)
    ((pc.map (fun p => p.scanline_id)).dedup)
  rw [hnil] at hperm
  have hd : (pc.map (fun p => p.scanline_id)).dedup = [] := hperm.nil_eq.symm
  rw [List.dedup_eq_nil, List.map_eq_nil_iff] at hd
  exact h hd

theorem slr_core_eq_none_iff (pc : List (Pt R)) (dt mt : R) :
    slr_core pc dt mt = none
      ↔ pc.countP (fun p => p.predicted_label = 0) = 0 := by
  unfold slr_core
  by_cases h : pc.countP (fun p => p.predicted_label = 0) = 0
  · simp [h]
  · rw [if_neg h]
    have hfil : pc.filter (fun p => p.predicted_label = 0) ≠ [] := by
      intro hnil
      refine h (List.countP_eq_zero.mpr ?_)
      exact List.filter_eq_nil_iff.mp hnil
    have hisEmpty : (pc.filter (fun p => p.predicted_label = 0)).isEmpty = false := by
      cases hfe : (pc.filter (fun p => p.predicted_label = 0)).isEmpty with
      | false => rfl
      | true => exact absurd (List.isEmpty_iff.mp hfe) hfil
    simp only [hisEmpty, Bool.false_eq_true, if_false]
    have hg := group_by_scanline_ne_nil (pc.filter (fun p => p.predicted_label = 0)) hfil
    constructor
    · intro hcontra
      cases hgb : group_by_scanline (pc.filter (fun p => p.predicted_label = 0)) with
      | nil => exact absurd hgb hg
      | cons sl0 rest =>
        rw [hgb] at hcontra
        simp at hcontra
    · intro hc0
      exact absurd hc0 h

/-- Claim C2: `scan_line_run_clustering` raises exactly when no point of the
input has `predicted_label == 0`, and in that case the cloud is returned
untouched (the raise precedes every write). -/
theorem claim_C2_input_exhausted (pc : List (Pt R)) (dt mt : R) :
    ((scan_line_run_clustering pc dt mt).2.isSome = true
      ↔ pc.countP (fun p => p.predicted_label = 0) = 0)
    ∧ ((scan_line_run_clustering pc dt mt).2.isSome = true
      → (scan_line_run_clustering pc dt mt).1 = pc) := by
  unfold scan_line_run_clustering
  cases hc : slr_core pc dt mt with
  | none =>
    exact ⟨⟨fun _ => (slr_core_eq_none_iff pc dt mt).mp hc, fun _ => rfl⟩, fun _ => rfl⟩
  | some res =>
    refine ⟨⟨fun hf => absurd hf Bool.false_ne_true, fun h0 => ?_⟩,
      fun hf => absurd hf Bool.false_ne_true⟩
    have hnone := (slr_core_eq_none_iff pc dt mt).mpr h0
    rw [hc] at hnone
    exact absurd hnone (by simp)

theorem claim_C2_witness :
    ((scan_line_run_clustering pcAllLabeled (5 : ℤ) 10).2.isSome = true
      ↔ pcAllLabeled.countP (fun p => p.predicted_label = 0) = 0)
    ∧ ((scan_line_run_clustering pcAllLabeled (5 : ℤ) 10).2.isSome = true
      → (scan_line_run_clustering pcAllLabeled (5 : ℤ) 10).1 = pcAllLabeled) :=
  claim_C2_input_exhausted pcAllLabeled 5 10

/-! ### Claims C8 and C10: run extraction -/

/-- Claim C8: after the forward pass, the last run is merged into the first
(last run's points first) and the run count drops by one exactly when the
scanline's endpoints are within threshold AND more than one run was found;
otherwise the forward pass's runs are returned unchanged. -/
theorem claim_C8_circular_merge (p : Pt R) (rest : List (Pt R)) (t : R) :
    (sq_dist p ((p :: rest).getLast (List.cons_ne_nil p rest)) < t * t
        ∧ 1 < (runsGo t p [p] rest).length →
      find_runs (p :: rest) t
          = ((runsGo t p [p] rest).getLastD [] ++ (runsGo t p [p] rest).headD [])
              :: (runsGo t p [p] rest).tail.dropLast
        ∧ (find_runs (p :: rest) t).length + 1 = (runsGo t p [p] rest).length)
    ∧ (¬(sq_dist p ((p :: rest).getLast (List.cons_ne_nil p rest)) < t * t
        ∧ 1 < (runsGo t p [p] rest).length) →
      find_runs (p :: rest) t = runsGo t p [p] rest) := by
  constructor
  · intro h
    have hne := runsGo_ne_nil t p [p] rest
    match hr : runsGo t p [p] rest with
    | [] => exact absurd hr hne
    | r0 :: rtail =>
      rw [hr] at h
      have hrt : rtail ≠ [] := by
        intro hnil
        rw [hnil] at h
        simp at h
      have hlastD : (r0 :: rtail).getLastD [] = rtail.getLastD [] := by
        rw [List.getLastD_cons, List.getLastD_eq_getLast?, List.getLastD_eq_getLast?,
          List.getLast?_eq_getLast _ hrt]
        rfl
      have hfr : find_runs (p :: rest) t = merge_circular (r0 :: rtail) := by
        simp only [find_runs]
        rw [hr, if_pos h]
      constructor
      · rw [hfr]
        simp only [merge_circular, hlastD, List.headD_cons, List.tail_cons]
      · rw [hfr]
        simp only [merge_circular, List.length_cons]
        have hdl : rtail.dropLast.length = rtail.length - 1 := List.length_dropLast rtail
        have hpos : 1 ≤ rtail.length := List.length_pos.mpr hrt
        omega
  · intro h
    simp only [find_runs]
    rw [if_neg h]

theorem claim_C8_witness :
    find_runs [ptZ 0 0 0 0, ptZ 10 0 0 0, ptZ 1 0 0 0] (5 : ℤ)
        = [[ptZ 1 0 0 0, ptZ 0 0 0 0], [ptZ 10 0 0 0]]
    ∧ find_runs [ptZ 0 0 0 0, ptZ 1 0 0 0, ptZ 40 0 0 0] (5 : ℤ)
        = [[ptZ 0 0 0 0, ptZ 1 0 0 0], [ptZ 40 0 0 0]] := by
  have h1 := claim_C8_circular_merge (ptZ 0 0 0 0) [ptZ 10 0 0 0, ptZ 1 0 0 0] (5 : ℤ)
  have h2 := claim_C8_circular_merge (ptZ 0 0 0 0) [ptZ 1 0 0 0, ptZ 40 0 0 0] (5 : ℤ)
  exact ⟨((h1.1 (by decide)).1).trans (by decide), (h2.2 (by decide)).trans (by decide)⟩

/-- Claim C10: on a nonempty scanline, `find_runs` returns a nonempty list of
runs that partitions the scanline's points — every point appears in exactly
one run (multiset equality) and the run sizes sum to the input size — with or
without the circular merge. -/
theorem claim_C10_runs_partition (sl : List (Pt R)) (t : R) (h : sl ≠ []) :
    find_runs sl t ≠ []
    ∧ (find_runs sl t).flatten.Perm sl
    ∧ ((find_runs sl t).map List.length).sum = sl.length := by
  refine ⟨find_runs_ne_nil sl t h, find_runs_flatten_perm sl t, ?_⟩
  have hlen := (find_runs_flatten_perm sl t).length_eq
  simpa [List.length_flatten] using hlen

theorem claim_C10_witness :
    find_runs [ptZ 0 0 0 0, ptZ 10 0 0 0, ptZ 1 0 0 0] (5 : ℤ) ≠ []
    ∧ (find_runs [ptZ 0 0 0 0, ptZ 10 0 0 0, ptZ 1 0 0 0] (5 : ℤ)).flatten.Perm
        [ptZ 0 0 0 0, ptZ 10 0 0 0, ptZ 1 0 0 0]
    ∧ ((find_runs [ptZ 0 0 0 0, ptZ 10 0 0 0, ptZ 1 0 0 0] (5 : ℤ)).map
        List.length).sum = 3 :=
  claim_C10_runs_partition [ptZ 0 0 0 0, ptZ 10 0 0 0, ptZ 1 0 0 0] 5 (by decide)

/-! ### Claim C7: ground refinement -/

theorem gpf_go_fst (est : List (V3 F) → V3 F × F) (xyz : List (V3 F)) (t : F) :
    ∀ (k : ℕ) (seeds : List ℕ) (pl : V3 F × F),
      (gpf_go est xyz t k seeds pl).1 = (gpf_reseed est xyz t)^[k] seeds := by
  intro k
  induction k with
  | zero => intro seeds pl; simp [gpf_go]
  | succ k ih =>
    intro seeds pl
    rw [gpf_go, ih, Function.iterate_succ_apply]
    rfl

theorem gpf_go_snd (est : List (V3 F) → V3 F × F) (xyz : List (V3 F)) (t : F) :
    ∀ (k : ℕ) (seeds : List ℕ) (pl : V3 F × F),
      (gpf_go est xyz t (k + 1) seeds pl).2
        = (gpf_step est xyz t ((gpf_reseed est xyz t)^[k] seeds)).1 := by
  intro k
  induction k with
  | zero => intro seeds pl; simp [gpf_go]
  | succ k ih =>
    intro seeds pl
    rw [gpf_go, ih, Function.iterate_succ_apply]
    rfl

/-- Membership in `np.where(mask)[0]`, the index list of rows satisfying a
pointwise predicate. -/
theorem mem_filter_enum_map_fst {α : Type} (l : List α) (P : α → Bool) (i : ℕ) :
    i ∈ (l.enum.filter (fun iv => P iv.2)).map Prod.fst
      ↔ ∃ v, l[i]? = some v ∧ P v = true := by
  constructor
  · intro h
    obtain ⟨iv, hmem, rfl⟩ := List.mem_map.mp h
    obtain ⟨henum, hP⟩ := List.mem_filter.mp hmem
    exact ⟨iv.2, List.mem_enum_iff_getElem?.mp henum, hP⟩
  · intro ⟨v, hv, hP⟩
    refine List.mem_map.mpr ⟨(i, v), List.mem_filter.mpr ⟨?_, hP⟩, rfl⟩
    exact List.mem_enum_iff_getElem?.mpr hv

/-- Claim C7: `refine_ground_plane` performs exactly `num_iterations`
iterations of the reseeding step (no convergence check); the returned plane
is the one fitted in the final iteration; the rows marked 9 are exactly those
within `distance_threshold` of the returned plane, and every other row keeps
its prior label 0. -/
theorem claim_C7_refine_exact_iterations (est : List (V3 F) → V3 F × F)
    (pc : List (Pt F)) (np : ℕ) (ht dt : F) (ni : ℕ)
    (hni : 1 ≤ ni) (hpl : ∀ p ∈ pc, p.predicted_label = 0) :
    (gpf_go est (pc.map (fun p => (p.x, p.y, p.z))) dt ni
        (extract_initial_seed_indices (pc.map (fun p => (p.x, p.y, p.z))) np ht)
        ((0, 0, 0), 0)).1
      = (gpf_reseed est (pc.map (fun p => (p.x, p.y, p.z))) dt)^[ni]
          (extract_initial_seed_indices (pc.map (fun p => (p.x, p.y, p.z))) np ht)
    ∧ (refine_ground_plane est pc np ht dt ni).2
      = (gpf_step est (pc.map (fun p => (p.x, p.y, p.z))) dt
          ((gpf_reseed est (pc.map (fun p => (p.x, p.y, p.z))) dt)^[ni - 1]
            (extract_initial_seed_indices (pc.map (fun p => (p.x, p.y, p.z))) np ht))).1
    ∧ (refine_ground_plane est pc np ht dt ni).1
      = pc.enum.map (fun ip =>
          if point_plane_close (refine_ground_plane est pc np ht dt ni).2
              (ip.2.x, ip.2.y, ip.2.z) dt
          then { ip.2 with predicted_label := 9 } else ip.2)
    ∧ (∀ p ∈ (refine_ground_plane est pc np ht dt ni).1,
        p.predicted_label = 9 ∨ p.predicted_label = 0) := by
  obtain ⟨k, rfl⟩ : ∃ k, ni = k + 1 := ⟨ni - 1, by omega⟩
  set xyz := pc.map (fun p => (p.x, p.y, p.z)) with hxyz
  set seeds0 := extract_initial_seed_indices xyz np ht with hseeds0
  have hfst := gpf_go_fst est xyz dt (k + 1) seeds0 ((0, 0, 0), 0)
  have hsnd := gpf_go_snd est xyz dt k seeds0 ((0, 0, 0), 0)
  have hplane : (refine_ground_plane est pc np ht dt (k + 1)).2
      = (gpf_step est xyz dt ((gpf_reseed est xyz dt)^[k] seeds0)).1 := by
    unfold refine_ground_plane
    simpa using hsnd
  have hseedsF : (gpf_go est xyz dt (k + 1) seeds0 ((0, 0, 0), 0)).1
      = (xyz.enum.filter (fun iv =>
          point_plane_close (refine_ground_plane est pc np ht dt (k + 1)).2 iv.2 dt)).map
            Prod.fst := by
    rw [hfst, Function.iterate_succ_apply', hplane]
    rfl
  have hout : (refine_ground_plane est pc np ht dt (k + 1)).1
      = pc.enum.map (fun ip =>
          if ip.1 ∈ (gpf_go est xyz dt (k + 1) seeds0 ((0, 0, 0), 0)).1
          then { ip.2 with predicted_label := 9 } else ip.2) := by
    unfold refine_ground_plane
    rfl
  have hcond : ∀ ip ∈ pc.enum,
      (ip.1 ∈ (gpf_go est xyz dt (k + 1) seeds0 ((0, 0, 0), 0)).1
        ↔ point_plane_close (refine_ground_plane est pc np ht dt (k + 1)).2
            (ip.2.x, ip.2.y, ip.2.z) dt = true) := by
    intro ip hip
    rw [hseedsF]
    refine (mem_filter_enum_map_fst xyz
      (fun v => point_plane_close (refine_ground_plane est pc np ht dt (k + 1)).2 v dt)
      ip.1).trans ?_
    have hget : pc[ip.1]? = some ip.2 := List.mem_enum_iff_getElem?.mp (by
      rcases ip with ⟨i, p⟩; exact hip)
    have hxyzget : xyz[ip.1]? = some (ip.2.x, ip.2.y, ip.2.z) := by
      rw [hxyz, List.getElem?_map, hget]
      rfl
    constructor
    · intro ⟨v, hv, hP⟩
      rw [hxyzget] at hv
      obtain rfl : v = (ip.2.x, ip.2.y, ip.2.z) := by simpa using hv.symm
      exact hP
    · intro hP
      exact ⟨(ip.2.x, ip.2.y, ip.2.z), hxyzget, hP⟩
  have hmarked : (refine_ground_plane est pc np ht dt (k + 1)).1
      = pc.enum.map (fun ip =>
          if point_plane_close (refine_ground_plane est pc np ht dt (k + 1)).2
              (ip.2.x, ip.2.y, ip.2.z) dt
          then { ip.2 with predicted_label := 9 } else ip.2) := by
    rw [hout]
    refine List.map_congr_left ?_
    intro ip hip
    have h := hcond ip hip
    by_cases hc : ip.1 ∈ (gpf_go est xyz dt (k + 1) seeds0 ((0, 0, 0), 0)).1
    · rw [if_pos hc, if_pos (h.mp hc)]
    · rw [if_neg hc, if_neg (fun hb => hc (h.mpr hb))]
  refine ⟨hfst, hplane, hmarked, ?_⟩
  intro p hp
  rw [hmarked] at hp
  obtain ⟨ip, hip, rfl⟩ := List.mem_map.mp hp
  have hmem : ip.2 ∈ pc := by
    have hget : pc[ip.1]? = some ip.2 := List.mem_enum_iff_getElem?.mp (by
      rcases ip with ⟨i, q⟩; exact hip)
    obtain ⟨h, hh⟩ := List.getElem?_eq_some_iff.mp hget
    exact hh ▸ List.getElem_mem h
  split
  · exact Or.inl rfl
  · exact Or.inr (hpl ip.2 hmem)

theorem claim_C7_witness :
    (gpf_go estC7 (pcC7.map (fun p => (p.x, p.y, p.z))) (1 : ℚ) 1
        (extract_initial_seed_indices (pcC7.map (fun p => (p.x, p.y, p.z))) 1 1)
        ((0, 0, 0), 0)).1
      = (gpf_reseed estC7 (pcC7.map (fun p => (p.x, p.y, p.z))) 1)^[1]
          (extract_initial_seed_indices (pcC7.map (fun p => (p.x, p.y, p.z))) 1 1)
    ∧ (refine_ground_plane estC7 pcC7 1 1 1 1).1
      = pcC7.enum.map (fun ip =>
          if point_plane_close (refine_ground_plane estC7 pcC7 1 1 1 1).2
              (ip.2.x, ip.2.y, ip.2.z) 1
          then { ip.2 with predicted_label := 9 } else ip.2) := by
  have h := claim_C7_refine_exact_iterations estC7 pcC7 1 1 1 1 le_rfl
    (by intro p hp; fin_cases hp <;> rfl)
  exact ⟨h.1, h.2.2.1⟩

/-! ### Claim C9: initial seed selection -/

/-- Claim C9: `extract_initial_seed_indices` returns exactly (and without
duplicates) the indices of points whose height lies below `LPR +
height_threshold`; the LPR averages the `num_points` lowest heights (the
sorted prefix is below everything after it), clamping `num_points` to the
point count; the function only reads the cloud. -/
theorem claim_C9_seed_selection (pc : List (V3 F)) (np : ℕ) (ht : F)
    (hpc : pc ≠ []) (hnp : 1 ≤ np) :
    (∀ i : ℕ, i ∈ extract_initial_seed_indices pc np ht
      ↔ ∃ v, pc[i]? = some v ∧ zc v < lpr_of pc np + ht)
    ∧ (extract_initial_seed_indices pc np ht).Nodup
    ∧ (pc.length ≤ np → lpr_of pc np = (pc.map zc).sum / (pc.length : F))
    ∧ (∀ a ∈ ((pc.enum).insertionSort (fun a b => zc a.2 ≤ zc b.2)).take np,
       ∀ b ∈ ((pc.enum).insertionSort (fun a b => zc a.2 ≤ zc b.2)).drop np,
         zc a.2 ≤ zc b.2) := by
  have hperm : ((pc.enum).insertionSort (fun a b => zc a.2 ≤ zc b.2)).Perm pc.enum :=
    List.perm_insertionSort _ _
  refine ⟨?_, ?_, ?_, ?_⟩
  · intro i
    constructor
    · intro h
      obtain ⟨pair, hmem, rfl⟩ := List.mem_map.mp h
      obtain ⟨hsorted, hP⟩ := List.mem_filter.mp hmem
      refine ⟨pair.2, List.mem_enum_iff_getElem?.mp (hperm.mem_iff.mp hsorted), ?_⟩
      simpa [lpr_of] using of_decide_eq_true hP
    · intro ⟨v, hv, hvp⟩
      refine List.mem_map.mpr ⟨(i, v), List.mem_filter.mpr ⟨?_, ?_⟩, rfl⟩
      · exact hperm.mem_iff.mpr (List.mem_enum_iff_getElem?.mpr hv)
      · simpa [lpr_of] using decide_eq_true (by simpa [lpr_of] using hvp)
  · have hsub : ((((pc.enum).insertionSort (fun a b => zc a.2 ≤ zc b.2)).filter
        (fun a => zc a.2 < lpr_of pc np + ht)).map Prod.fst).Sublist
        ((((pc.enum).insertionSort (fun a b => zc a.2 ≤ zc b.2))).map Prod.fst) :=
      List.Sublist.map Prod.fst (List.filter_sublist _)
    have hnd : ((((pc.enum).insertionSort (fun a b => zc a.2 ≤ zc b.2))).map
        Prod.fst).Nodup := by
      have hp2 := hperm.map Prod.fst
      rw [hp2.nodup_iff, List.enum_map_fst]
      exact List.nodup_range pc.length
    exact List.Sublist.nodup (by simpa [extract_initial_seed_indices, lpr_of] using hsub) hnd
  · intro hlen
    have hslen : ((pc.enum).insertionSort (fun a b => zc a.2 ≤ zc b.2)).length
        = pc.length := by
      rw [hperm.length_eq, List.enum_length]
    have htake : ((pc.enum).insertionSort (fun a b => zc a.2 ≤ zc b.2)).take np
        = (pc.enum).insertionSort (fun a b => zc a.2 ≤ zc b.2) := by
      apply List.take_of_length_le
      omega
    have hsum : (((pc.enum).insertionSort (fun a b => zc a.2 ≤ zc b.2)).map
        (fun a => zc a.2)).sum = (pc.map zc).sum := by
      have := (hperm.map (fun (a : ℕ × V3 F) => zc a.2)).sum_eq
      rw [this]
      have henum : (pc.enum).map (fun (a : ℕ × V3 F) => zc a.2)
          = pc.map zc := by
        have : (pc.enum).map (fun (a : ℕ × V3 F) => zc a.2)
            = ((pc.enum).map Prod.snd).map zc := by
          rw [List.map_map]
          rfl
        rw [this, List.enum_map_snd]
      rw [henum]
    unfold lpr_of meanL
    rw [htake, hsum, List.length_map, hslen]
  · haveI : IsTotal (ℕ × V3 F) (fun a b => zc a.2 ≤ zc b.2) :=
      ⟨fun a b => le_total (zc a.2) (zc b.2)⟩
    haveI : IsTrans (ℕ × V3 F) (fun a b => zc a.2 ≤ zc b.2) :=
      ⟨fun a b c hab hbc => le_trans hab hbc⟩
    have hsorted := List.sorted_insertionSort (fun (a b : ℕ × V3 F) => zc a.2 ≤ zc b.2)
      (pc.enum)
    rw [← List.take_append_drop np ((pc.enum).insertionSort
      (fun a b => zc a.2 ≤ zc b.2))] at hsorted
    exact (List.pairwise_append.mp hsorted).2.2

theorem claim_C9_witness :
    (0 ∈ extract_initial_seed_indices pcC9 1 1
      ↔ ∃ v, pcC9[0]? = some v ∧ zc v < lpr_of pcC9 1 + 1)
    ∧ (extract_initial_seed_indices pcC9 1 1).Nodup
    ∧ lpr_of pcC9 5 = (pcC9.map zc).sum / (pcC9.length : ℚ) := by
  have h1 := claim_C9_seed_selection pcC9 1 1 (by decide) le_rfl
  have h5 := claim_C9_seed_selection pcC9 5 1 (by decide) (by omega)
  exact ⟨h1.1 0, h1.2.1, h5.2.2.1 (by decide)⟩

/-! ### Claim C3: frame conditions of one pipeline invocation -/

theorem write_back_length (cloud : List (Pt R)) (pairs : List (ℕ × ℕ)) :
    (write_back cloud pairs).length = cloud.length := by
  simp [write_back, List.enum_length]

theorem write_back_getElem (cloud : List (Pt R)) (pairs : List (ℕ × ℕ))
    (i : ℕ) (hi : i < cloud.length) (ho : i < (write_back cloud pairs).length) :
    (write_back cloud pairs)[i]
      = match pairs.lookup i with
        | some lbl => { cloud[i] with predicted_label := lbl }
        | none => cloud[i] := by
  unfold write_back
  rw [List.getElem_map, List.getElem_enum]

/-- The cloud returned by a successful `scan_line_run_clustering` is a
`write_back` whose written row indices all carried `predicted_label == 0`
at entry. -/
theorem slr_core_some_write_back (pc : List (Pt R)) (dt mt : R)
    (res : List (Pt R) × List (ℕ × ℕ)) (hc : slr_core pc dt mt = some res) :
    ∃ pairs : List (ℕ × ℕ),
      res.1 = write_back pc pairs
      ∧ ∀ k v, pairs.lookup k = some v →
          ∃ hk : k < pc.length, pc[k].predicted_label = 0 := by
  unfold slr_core at hc
  by_cases h0 : pc.countP (fun p => p.predicted_label = 0) = 0
  · rw [if_pos h0] at hc
    exact absurd hc (by simp)
  · rw [if_neg h0] at hc
    simp only at hc
    by_cases hemp : (pc.filter (fun p => p.predicted_label = 0)).isEmpty = true
    · rw [if_pos hemp] at hc
      exact absurd hc (by simp)
    · rw [if_neg hemp] at hc
      cases hgb : group_by_scanline (pc.filter (fun p => p.predicted_label = 0)) with
      | nil => rw [hgb] at hc; exact absurd hc (by simp)
      | cons sl0 rest =>
        rw [hgb] at hc
        simp only at hc
        have hinj := Option.some.inj hc
        refine ⟨_, (congrArg Prod.fst hinj).symm, ?_⟩
        intro k v hkv
        have hmem := mem_of_lookup_eq_some _ k v hkv
        have hk := (List.of_mem_zip hmem).1
        have hmem2 := (mem_filter_enum_map_fst pc
          (fun p => decide (p.predicted_label = 0)) k).mp hk
        obtain ⟨w, hw, hwp⟩ := hmem2
        obtain ⟨hlt, hget⟩ := List.getElem?_eq_some_iff.mp hw
        refine ⟨hlt, ?_⟩
        rw [hget]
        exact of_decide_eq_true hwp

/-- Frame of `scan_line_run_clustering`: every column except
`predicted_label` is returned unchanged row by row, and a row that entered
with a nonzero `predicted_label` keeps it. -/
theorem slr_frame (pc : List (Pt R)) (dt mt : R) :
    (scan_line_run_clustering pc dt mt).1.length = pc.length
    ∧ ∀ (i : ℕ) (hi : i < pc.length)
        (ho : i < (scan_line_run_clustering pc dt mt).1.length),
        ((scan_line_run_clustering pc dt mt).1[i].x = pc[i].x
          ∧ (scan_line_run_clustering pc dt mt).1[i].y = pc[i].y
          ∧ (scan_line_run_clustering pc dt mt).1[i].z = pc[i].z
          ∧ (scan_line_run_clustering pc dt mt).1[i].true_label = pc[i].true_label
          ∧ (scan_line_run_clustering pc dt mt).1[i].scanline_id = pc[i].scanline_id)
        ∧ (pc[i].predicted_label ≠ 0 →
            (scan_line_run_clustering pc dt mt).1[i].predicted_label
              = pc[i].predicted_label) := by
  unfold scan_line_run_clustering
  cases hc : slr_core pc dt mt with
  | none => exact ⟨rfl, fun i hi ho => ⟨⟨rfl, rfl, rfl, rfl, rfl⟩, fun _ => rfl⟩⟩
  | some res =>
    obtain ⟨pairs, hres1, hpairs⟩ := slr_core_some_write_back pc dt mt res hc
    simp only [hres1]
    refine ⟨write_back_length pc pairs, ?_⟩
    intro i hi ho
    have hwb := write_back_getElem pc pairs i hi (by rw [write_back_length]; exact hi)
    cases hlk : pairs.lookup i with
    | none =>
      rw [hlk] at hwb
      simp only at hwb
      rw [hwb]
      exact ⟨⟨rfl, rfl, rfl, rfl, rfl⟩, fun _ => rfl⟩
    | some lbl =>
      rw [hlk] at hwb
      simp only at hwb
      rw [hwb]
      refine ⟨⟨rfl, rfl, rfl, rfl, rfl⟩, ?_⟩
      intro hne
      obtain ⟨hk, hk0⟩ := hpairs i lbl hlk
      exact absurd hk0 hne

/-- Frame of `refine_ground_plane`: row by row, every column except
`predicted_label` is unchanged, and `predicted_label` is either set to 9 or
kept. -/
theorem refine_frame (est : List (V3 F) → V3 F × F) (pc : List (Pt F))
    (np : ℕ) (ht dt : F) (ni : ℕ) :
    (refine_ground_plane est pc np ht dt ni).1.length = pc.length
    ∧ ∀ (i : ℕ) (hi : i < pc.length)
        (hr : i < (refine_ground_plane est pc np ht dt ni).1.length),
        ((refine_ground_plane est pc np ht dt ni).1[i].x = pc[i].x
          ∧ (refine_ground_plane est pc np ht dt ni).1[i].y = pc[i].y
          ∧ (refine_ground_plane est pc np ht dt ni).1[i].z = pc[i].z
          ∧ (refine_ground_plane est pc np ht dt ni).1[i].true_label = pc[i].true_label
          ∧ (refine_ground_plane est pc np ht dt ni).1[i].scanline_id
              = pc[i].scanline_id)
        ∧ ((refine_ground_plane est pc np ht dt ni).1[i].predicted_label = 9
            ∨ (refine_ground_plane est pc np ht dt ni).1[i].predicted_label
                = pc[i].predicted_label) := by
  constructor
  · simp [refine_ground_plane, List.enum_length]
  · intro i hi hr
    have hget : (refine_ground_plane est pc np ht dt ni).1[i]
        = if i ∈ (gpf_go est (pc.map (fun p => (p.x, p.y, p.z))) dt ni
              (extract_initial_seed_indices (pc.map (fun p => (p.x, p.y, p.z))) np ht)
              ((0, 0, 0), 0)).1
          then { pc[i] with predicted_label := 9 } else pc[i] := by
      show ((pc.enum.map _)[i] = _)
      rw [List.getElem_map, List.getElem_enum]
    rw [hget]
    split
    · exact ⟨⟨rfl, rfl, rfl, rfl, rfl⟩, Or.inl rfl⟩
    · exact ⟨⟨rfl, rfl, rfl, rfl, rfl⟩, Or.inr rfl⟩

/-- Claim C3: across one full pipeline invocation (`refine_ground_plane`
then `scan_line_run_clustering`) only `predicted_label` changes: `x`, `y`,
`z`, `true_label` and `scanline_id` of every row survive untouched,
`refine_ground_plane` writes only the value 9, and
`scan_line_run_clustering` writes only rows that entered it with
`predicted_label == 0` — rows it received as 9 (ground) or any other
nonzero label are untouched by it. -/
theorem claim_C3_pipeline_frame (est : List (V3 F) → V3 F × F)
    (pc : List (Pt F)) (np : ℕ) (ht gdt : F) (ni : ℕ) (sdt mt : F) :
    (refine_ground_plane est pc np ht gdt ni).1.length = pc.length
    ∧ (gpf_slr_pipeline est pc np ht gdt ni sdt mt).1.length = pc.length
    ∧ ∀ (i : ℕ) (hi : i < pc.length)
        (hr : i < (refine_ground_plane est pc np ht gdt ni).1.length)
        (ho : i < (gpf_slr_pipeline est pc np ht gdt ni sdt mt).1.length),
        ((gpf_slr_pipeline est pc np ht gdt ni sdt mt).1[i].x = pc[i].x
          ∧ (gpf_slr_pipeline est pc np ht gdt ni sdt mt).1[i].y = pc[i].y
          ∧ (gpf_slr_pipeline est pc np ht gdt ni sdt mt).1[i].z = pc[i].z
          ∧ (gpf_slr_pipeline est pc np ht gdt ni sdt mt).1[i].true_label
              = pc[i].true_label
          ∧ (gpf_slr_pipeline est pc np ht gdt ni sdt mt).1[i].scanline_id
              = pc[i].scanline_id)
        ∧ ((refine_ground_plane est pc np ht gdt ni).1[i].predicted_label = 9
            ∨ (refine_ground_plane est pc np ht gdt ni).1[i].predicted_label
                = pc[i].predicted_label)
        ∧ ((refine_ground_plane est pc np ht gdt ni).1[i].predicted_label ≠ 0 →
            (gpf_slr_pipeline est pc np ht gdt ni sdt mt).1[i].predicted_label
              = (refine_ground_plane est pc np ht gdt ni).1[i].predicted_label) := by
  obtain ⟨hrlen, hrframe⟩ := refine_frame est pc np ht gdt ni
  obtain ⟨hslen, hsframe⟩ :=
    slr_frame (refine_ground_plane est pc np ht gdt ni).1 sdt mt
  have hplen : (gpf_slr_pipeline est pc np ht gdt ni sdt mt).1.length = pc.length := by
    unfold gpf_slr_pipeline
    rw [hslen, hrlen]
  refine ⟨hrlen, hplen, ?_⟩
  intro i hi hr ho
  have hs := hsframe i (by rw [hrlen]; exact hi) (by
    unfold gpf_slr_pipeline at ho; exact ho)
  have hrf := hrframe i hi hr
  obtain ⟨⟨hx, hy, hz, htl, hsid⟩, hlbl⟩ := hs
  obtain ⟨⟨hx', hy', hz', htl', hsid'⟩, hlbl'⟩ := hrf
  exact ⟨⟨hx.trans hx', hy.trans hy', hz.trans hz', htl.trans htl',
    hsid.trans hsid'⟩, hlbl', hlbl⟩

theorem claim_C3_witness :
    (refine_ground_plane estC7 pcC7 1 1 1 1).1.length = pcC7.length
    ∧ (gpf_slr_pipeline estC7 pcC7 1 1 1 1 1 1).1.length = pcC7.length
    ∧ ((gpf_slr_pipeline estC7 pcC7 1 1 1 1 1 1).1.get ⟨0, by
          have h := claim_C3_pipeline_frame estC7 pcC7 1 1 1 1 1 1
          rw [h.2.1]; decide⟩).x
        = (pcC7.get ⟨0, by decide⟩).x := by
  have h := claim_C3_pipeline_frame estC7 pcC7 1 1 1 1 1 1
  refine ⟨h.1, h.2.1, ?_⟩
  have hx := (h.2.2 0 (by decide) (by rw [h.1]; decide) (by rw [h.2.1]; decide)).1.1
  exact hx

/-! ### The pipeline's dictionary states are reachable

The inductive `LStep`/`LReachable` above is justified against the code: the
dictionary produced by a successful `scan_line_run_clustering` call — and
every intermediate state along the way — arises from the empty dictionary by
`LStep` mutations. -/

theorem foldl_inv {α β : Type} (f : β → α → β) (P : β → Prop) :
    ∀ (l : List α) (init : β), P init →
      (∀ b a, a ∈ l → P b → P (f b a)) → P (l.foldl f init) := by
  intro l
  induction l with
  | nil => intro init h _; exact h
  | cons a t ih =>
    intro init h hstep
    exact ih (f init a) (hstep init a (by simp) h)
      (fun b x hx hb => hstep b x (by simp [hx]) hb)

theorem nearest_sq_label_mem (pts : List (Pt R)) (q : Pt R) (h : pts ≠ []) :
    (nearest_sq pts q).2 ∈ pts.map (fun p => p.predicted_label) := by
  match pts with
  | p :: rest =>
    show (rest.foldl _ (sq_dist p q, p.predicted_label)).2 ∈ _
    refine foldl_inv _ (fun best => best.2 ∈ (p :: rest).map (fun p => p.predicted_label))
      rest (sq_dist p q, p.predicted_label) (by simp) ?_
    intro b r hr hb
    dsimp only
    split
    · exact List.mem_map.mpr ⟨r, by simp [hr], rfl⟩
    · exact hb

theorem run_neighbor_labels_spec (pts : List (Pt R)) (m : List (ℕ × ℕ))
    (run : List (Pt R)) (mt : R) (hne : pts ≠ [])
    (hkeys : ∀ p ∈ pts, containsKey m p.predicted_label = true) :
    ∀ s ∈ run_neighbor_labels pts m run mt,
      ∃ l, containsKey m l = true ∧ resolve_label m l = s := by
  intro s hs
  unfold run_neighbor_labels at hs
  have hs' := List.mem_dedup.mp hs
  obtain ⟨dr, hdr, rfl⟩ := List.mem_map.mp hs'
  have hdr' := (List.mem_filter.mp hdr).1
  obtain ⟨p, _, rfl⟩ := List.mem_map.mp hdr'
  have hlbl := nearest_sq_label_mem pts p hne
  obtain ⟨q, hq, hql⟩ := List.mem_map.mp hlbl
  refine ⟨(nearest_sq pts p).2, ?_, rfl⟩
  rw [← hql]
  exact hkeys q hq

theorem maxKey_setKey_new (m : List (ℕ × ℕ)) (t v : ℕ)
    (h : containsKey m t = false) :
    maxKey (setKey m t v) = max (maxKey m) t := by
  rw [maxKey_eq_keysOf, keysOf_setKey_new m t v h, foldrMax_append_singleton,
    ← maxKey_eq_keysOf]

theorem unifyMap_keysOf (m : List (ℕ × ℕ)) (S : List ℕ)
    (h : ∀ s ∈ S, containsKey m s = true) :
    keysOf (unifyMap m S) = keysOf m :=
  (foldl_setKey_lookup (minOf S) S m h).1

theorem containsKey_unifyMap (m : List (ℕ × ℕ)) (S : List ℕ)
    (h : ∀ s ∈ S, containsKey m s = true) (k : ℕ) :
    containsKey (unifyMap m S) k = containsKey m k := by
  cases hc : containsKey m k with
  | true =>
    exact (containsKey_iff_mem _ k).mpr
      ((unifyMap_keysOf m S h) ▸ (containsKey_iff_mem m k).mp hc)
  | false =>
    cases hc' : containsKey (unifyMap m S) k with
    | true =>
      have hmem := (containsKey_iff_mem _ k).mp hc'
      rw [unifyMap_keysOf m S h] at hmem
      rw [(containsKey_iff_mem m k).mpr hmem] at hc
      exact hc
    | false => rfl

theorem maxKey_unifyMap (m : List (ℕ × ℕ)) (S : List ℕ)
    (h : ∀ s ∈ S, containsKey m s = true) :
    maxKey (unifyMap m S) = maxKey m := by
  rw [maxKey_eq_keysOf, unifyMap_keysOf m S h, ← maxKey_eq_keysOf]

theorem maxValue_le_maxKey (m : List (ℕ × ℕ)) (hinv : MapInv m) :
    maxValue m ≤ maxKey m := by
  refine (foldrMax_le_iff _ _).mpr ?_
  intro v hv
  obtain ⟨kv, hkv, rfl⟩ := List.mem_map.mp hv
  have hlook : m.lookup kv.1 = some kv.2 :=
    lookup_eq_some_of_mem m kv.1 kv.2 hinv.nodup (by simpa using hkv)
  obtain ⟨_, hvkey⟩ := hinv.parent_le kv.1 kv.2 hlook
  exact ((hinv.contiguous kv.2).mp hvkey).2.1

/-- Invariant of the `for run in runs_current` fold of `update_labels`: the
dictionary stays reachable (each branch is an `LStep`), the counter stays in
the allocation range, and all labels written on runs are keys. -/
theorem update_go_spec (points_above : List (Pt R)) (mt : R)
    (hne : points_above ≠ []) :
    ∀ (runs done : List (List (Pt R))) (m : List (ℕ × ℕ)) (ctr : ℕ),
      LReachable m → 1 ≤ ctr → ctr ≤ maxKey m + 1 →
      (∀ p ∈ points_above, containsKey m p.predicted_label = true) →
      (∀ p ∈ done.flatten, containsKey m p.predicted_label = true) →
      LReachable (runs.foldl (update_labels_step points_above mt) (done, m, ctr)).2.1
      ∧ (∀ p ∈ (runs.foldl (update_labels_step points_above mt) (done, m, ctr)).1.flatten,
          containsKey (runs.foldl (update_labels_step points_above mt) (done, m, ctr)).2.1
            p.predicted_label = true)
      ∧ (runs.foldl (update_labels_step points_above mt) (done, m, ctr)).1.map
          List.length = done.map List.length ++ runs.map List.length := by
  intro runs
  induction runs with
  | nil =>
    intro done m ctr h1 _ _ _ h5
    exact ⟨h1, h5, by simp⟩
  | cons run rest ih =>
    intro done m ctr hreach hc1 hc2 hpa hdone
    have hinv := LReachable_mapInv m hreach
    simp only [List.foldl_cons]
    by_cases hS : (run_neighbor_labels points_above m run mt).isEmpty = true
    · -- assign_new_label branch
      have hstepdef : update_labels_step points_above mt (done, m, ctr) run
          = (done ++ [run.map (fun p =>
                ({ p with predicted_label := freshFrom m ctr } : Pt R))],
             setKey m (freshFrom m ctr) (freshFrom m ctr), freshFrom m ctr + 1) := by
        simp [update_labels_step, assign_new_label, hS]
      rw [hstepdef]
      have hfresh := freshFrom_eq_nextLabel m hinv ctr hc1 hc2
      have hreach2 : LReachable (setKey m (freshFrom m ctr) (freshFrom m ctr)) :=
        hreach.tail (LStep.assign m ctr hc1 hc2)
      have hmax2 : maxKey (setKey m (freshFrom m ctr) (freshFrom m ctr))
          = freshFrom m ctr := by
        rw [hfresh, maxKey_setKey_new m _ _ (nextLabel_not_mem m)]
        have := maxKey_lt_nextLabel m
        omega
      have hkeys2 : ∀ p ∈ (done ++ [run.map (fun p =>
            ({ p with predicted_label := freshFrom m ctr } : Pt R))]).flatten,
          containsKey (setKey m (freshFrom m ctr) (freshFrom m ctr))
            p.predicted_label = true := by
        intro p hp
        rw [List.flatten_append] at hp
        rcases List.mem_append.mp hp with hp | hp
        · rw [containsKey_setKey, hdone p hp]; simp
        · simp only [List.flatten_cons, List.flatten_nil, List.append_nil] at hp
          obtain ⟨q, _, rfl⟩ := List.mem_map.mp hp
          simp only [containsKey, lookup_setKey_self]
          rfl
      obtain ⟨g1, g2, g3⟩ := ih (done ++ [run.map (fun p =>
          ({ p with predicted_label := freshFrom m ctr } : Pt R))])
        (setKey m (freshFrom m ctr) (freshFrom m ctr)) (freshFrom m ctr + 1)
        hreach2 (by omega) (by omega)
        (fun p hp => by rw [containsKey_setKey, hpa p hp]; simp) hkeys2
      refine ⟨g1, g2, ?_⟩
      rw [g3]
      simp [List.map_append]
    · -- inherit_and_unify_labels branch
      have hSne : run_neighbor_labels points_above m run mt ≠ [] := by
        intro hnil
        rw [hnil] at hS
        exact hS rfl
      have hroots := run_neighbor_labels_spec points_above m run mt hne hpa
      have hSkeys : ∀ s ∈ run_neighbor_labels points_above m run mt,
          containsKey m s = true :=
        fun s hs => (unify_members_roots m hinv _ hroots s hs).1
      have hstepdef : update_labels_step points_above mt (done, m, ctr) run
          = (done ++ [run.map (fun p =>
                ({ p with predicted_label := minOf (run_neighbor_labels points_above m run mt) } : Pt R))],
             unifyMap m (run_neighbor_labels points_above m run mt), ctr) := by
        simp [update_labels_step, inherit_and_unify_labels, hS, unifyMap]
      rw [hstepdef]
      have hreach2 : LReachable (unifyMap m (run_neighbor_labels points_above m run mt)) :=
        hreach.tail (LStep.unify m _ hSne hroots)
      have hkeys2 : ∀ p ∈ (done ++ [run.map (fun p =>
            ({ p with predicted_label := minOf (run_neighbor_labels points_above m run mt) } : Pt R))]).flatten,
          containsKey (unifyMap m (run_neighbor_labels points_above m run mt))
            p.predicted_label = true := by
        intro p hp
        rw [List.flatten_append] at hp
        rcases List.mem_append.mp hp with hp | hp
        · rw [containsKey_unifyMap m _ hSkeys]
          exact hdone p hp
        · simp only [List.flatten_cons, List.flatten_nil, List.append_nil] at hp
          obtain ⟨q, _, rfl⟩ := List.mem_map.mp hp
          show containsKey _ (minOf (run_neighbor_labels points_above m run mt)) = true
          rw [containsKey_unifyMap m _ hSkeys]
          exact hSkeys _ (minOf_mem _ hSne)
      obtain ⟨g1, g2, g3⟩ := ih (done ++ [run.map (fun p =>
          ({ p with predicted_label := minOf (run_neighbor_labels points_above m run mt) } : Pt R))])
        (unifyMap m (run_neighbor_labels points_above m run mt)) ctr
        hreach2 hc1 (by rw [maxKey_unifyMap m _ hSkeys]; exact hc2)
        (fun p hp => by rw [containsKey_unifyMap m _ hSkeys]; exact hpa p hp) hkeys2
      refine ⟨g1, g2, ?_⟩
      rw [g3]
      simp [List.map_append]

/-- Invariant of the first-scanline loop: each iteration is a fresh
allocation (`LStep.assign` at counter `maxKey + 1`), and the counter always
equals the maximum key. -/
theorem init_go_spec :
    ∀ (runs done : List (List (Pt R))) (m : List (ℕ × ℕ)) (ctr : ℕ),
      LReachable m → maxKey m = ctr →
      (∀ p ∈ done.flatten, containsKey m p.predicted_label = true) →
      LReachable (runs.foldl init_scanline_step (done, m, ctr)).2.1
      ∧ maxKey (runs.foldl init_scanline_step (done, m, ctr)).2.1
          = (runs.foldl init_scanline_step (done, m, ctr)).2.2
      ∧ (∀ p ∈ (runs.foldl init_scanline_step (done, m, ctr)).1.flatten,
          containsKey (runs.foldl init_scanline_step (done, m, ctr)).2.1
            p.predicted_label = true)
      ∧ (runs.foldl init_scanline_step (done, m, ctr)).1.map List.length
          = done.map List.length ++ runs.map List.length := by
  intro runs
  induction runs with
  | nil =>
    intro done m ctr h1 h2 h3
    exact ⟨h1, h2.symm ▸ h2, h3, by simp⟩
  | cons run rest ih =>
    intro done m ctr hreach hmax hdone
    have hinv := LReachable_mapInv m hreach
    simp only [List.foldl_cons]
    have hc2 : (if ctr + 1 = 9 then ctr + 1 + 1 else ctr + 1) = nextLabel m := by
      unfold nextLabel
      rw [hmax]
      split <;> omega
    have hstepdef : init_scanline_step (done, m, ctr) run
        = (done ++ [run.map (fun p => ({ p with predicted_label := nextLabel m } : Pt R))],
           setKey m (nextLabel m) (nextLabel m), nextLabel m) := by
      simp only [init_scanline_step]
      rw [hc2]
    rw [hstepdef]
    have hfresh : freshFrom m (ctr + 1) = nextLabel m :=
      freshFrom_eq_nextLabel m hinv (ctr + 1) (by omega) (by omega)
    have hreach2 : LReachable (setKey m (nextLabel m) (nextLabel m)) := by
      have hstep := LStep.assign m (ctr + 1) (by omega) (by omega)
      rw [hfresh] at hstep
      exact hreach.tail hstep
    have hmax2 : maxKey (setKey m (nextLabel m) (nextLabel m)) = nextLabel m := by
      rw [maxKey_setKey_new m _ _ (nextLabel_not_mem m)]
      have := maxKey_lt_nextLabel m
      omega
    have hkeys2 : ∀ p ∈ (done ++ [run.map (fun p =>
          ({ p with predicted_label := nextLabel m } : Pt R))]).flatten,
        containsKey (setKey m (nextLabel m) (nextLabel m)) p.predicted_label = true := by
      intro p hp
      rw [List.flatten_append] at hp
      rcases List.mem_append.mp hp with hp | hp
      · rw [containsKey_setKey, hdone p hp]; simp
      · simp only [List.flatten_cons, List.flatten_nil, List.append_nil] at hp
        obtain ⟨q, _, rfl⟩ := List.mem_map.mp hp
        simp only [containsKey, lookup_setKey_self]
        rfl
    obtain ⟨g1, g2, g3, g4⟩ := ih (done ++ [run.map (fun p =>
        ({ p with predicted_label := nextLabel m } : Pt R))])
      (setKey m (nextLabel m) (nextLabel m)) (nextLabel m) hreach2 hmax2 hkeys2
    refine ⟨g1, g2, g3, ?_⟩
    rw [g4]
    simp [List.map_append]

theorem group_by_scanline_mem_ne_nil (pc : List (Pt R)) :
    ∀ g ∈ group_by_scanline pc, g ≠ [] := by
  intro g hg
  unfold group_by_scanline at hg
  obtain ⟨s, hs, rfl⟩ := List.mem_map.mp hg
  have hs' := (List.perm_insertionSort (fun a b : ℤ => a ≤ b) _).mem_iff.mp hs
  have hs'' := List.mem_dedup.mp hs'
  obtain ⟨p, hp, rfl⟩ := List.mem_map.mp hs''
  intro hnil
  have hmem : p ∈ pc.filter (fun q => q.scanline_id = p.scanline_id) :=
    List.mem_filter.mpr ⟨hp, by simp⟩
  rw [hnil] at hmem
  simp at hmem

/-- The final label-equivalence dictionary of a successful
`scan_line_run_clustering` call is reachable by `LStep` mutations from the
empty dictionary — the inductive `LReachable` covers the pipeline's states. -/
theorem slr_core_mapping_reachable (pc : List (Pt R)) (dt mt : R)
    (res : List (Pt R) × List (ℕ × ℕ)) (hc : slr_core pc dt mt = some res) :
    LReachable res.2 := by
  unfold slr_core at hc
  by_cases h0 : pc.countP (fun p => p.predicted_label = 0) = 0
  · rw [if_pos h0] at hc
    exact absurd hc (by simp)
  · rw [if_neg h0] at hc
    simp only at hc
    by_cases hemp : (pc.filter (fun p => p.predicted_label = 0)).isEmpty = true
    · rw [if_pos hemp] at hc
      exact absurd hc (by simp)
    · rw [if_neg hemp] at hc
      cases hgb : group_by_scanline (pc.filter (fun p => p.predicted_label = 0)) with
      | nil => rw [hgb] at hc; exact absurd hc (by simp)
      | cons sl0 rest =>
        rw [hgb] at hc
        simp only at hc
        have hres2 := congrArg Prod.snd (Option.some.inj hc)
        rw [← hres2]
        have hsl0ne : sl0 ≠ [] :=
          group_by_scanline_mem_ne_nil _ sl0 (by rw [hgb]; exact List.mem_cons_self _ _)
        obtain ⟨i1, i2, i3, i4⟩ := @init_go_spec R _ (find_runs sl0 dt) [] [] 0
          Relation.ReflTransGen.refl rfl (by simp)
        have hflat0len : (init_first_scanline (find_runs sl0 dt)).1.flatten.length
            = sl0.length := by
          rw [List.length_flatten]
          unfold init_first_scanline
          rw [i4]
          simp only [List.map_nil, List.nil_append]
          rw [← List.length_flatten, (find_runs_flatten_perm sl0 dt).length_eq]
        have hflat0 : (init_first_scanline (find_runs sl0 dt)).1.flatten ≠ [] := by
          intro hn
          rw [hn] at hflat0len
          have := List.length_pos.mpr hsl0ne
          simp at hflat0len
          omega
        refine (foldl_inv (slr_scanline_step dt mt)
          (fun acc => LReachable acc.2.2
            ∧ (∀ p ∈ acc.2.1.flatten, containsKey acc.2.2 p.predicted_label = true)
            ∧ acc.2.1.flatten ≠ [])
          rest ([], (init_first_scanline (find_runs sl0 dt)).1,
            (init_first_scanline (find_runs sl0 dt)).2.1)
          ⟨i1, i3, hflat0⟩ ?_).1
        intro b sl hsl hb
        rcases b with ⟨d, ra, m⟩
        obtain ⟨hbreach, hbkeys, hbne⟩ := hb
        have hslne : sl ≠ [] :=
          group_by_scanline_mem_ne_nil _ sl (by rw [hgb]; exact List.mem_cons.mpr (Or.inr hsl))
        have hstepdef : slr_scanline_step dt mt (d, ra, m) sl
            = (d ++ [(update_labels (find_runs sl dt) ra m mt).1.flatten],
               (update_labels (find_runs sl dt) ra m mt).1,
               (update_labels (find_runs sl dt) ra m mt).2) := by
          simp [slr_scanline_step]
        rw [hstepdef]
        have hinv := LReachable_mapInv m hbreach
        obtain ⟨u1, u2, u3⟩ := update_go_spec ra.flatten mt hbne (find_runs sl dt) [] m
          (maxValue m + 1) hbreach (by omega)
          (by have := maxValue_le_maxKey m hinv; omega) hbkeys (by simp)
        have hupd : update_labels (find_runs sl dt) ra m mt
            = (((find_runs sl dt).foldl (update_labels_step ra.flatten mt)
                ([], m, maxValue m + 1)).1,
               ((find_runs sl dt).foldl (update_labels_step ra.flatten mt)
                ([], m, maxValue m + 1)).2.1) := rfl
        refine ⟨?_, ?_, ?_⟩
        · rw [hupd]
          exact u1
        · rw [hupd]
          exact u2
        · rw [hupd]
          have hlen : (update_labels (find_runs sl dt) ra m mt).1.flatten.length
              = sl.length := by
            rw [hupd, List.length_flatten, u3]
            simp only [List.map_nil, List.nil_append]
            rw [← List.length_flatten, (find_runs_flatten_perm sl dt).length_eq]
          rw [hupd] at hlen
          intro hn
          rw [hn] at hlen
          have := List.length_pos.mpr hslne
          simp at hlen
          omega
